import Mathlib

/-!
# helm-controller `internal/util`: values checksums and release revision

A shallow embedding of `src/internal/util/util.go`.

* Go `interface{}` trees are the inductive type `Value`.
* A Go map is an association list; the order of the list is the order in
  which a `range` loop visits the map, which the Go runtime leaves unspecified.
* In-place mutation (`SortMapSlice`) is a function returning the new slice.
* Library routines (`sort.Slice`, `crypto/sha1`, the YAML packages) are
  modelled from their published contracts and say so in their comments.
-/

namespace Util

/-! ## Data model -/

/-- Scalar Go values that occur as leaves and as mapping keys. Floating point
scalars are outside the embedding. -/
inductive Scalar where
  | null
  | bool (b : Bool)
  | int (i : Int)
  | str (s : String)
deriving DecidableEq, Repr

/-- A dynamically typed Go value (`interface{}`).

* `seq` is `[]interface{}`;
* `mapSlice` is `goyaml.MapSlice`, a slice of `MapItem{Key, Value}`;
* `strMap` is `map[string]interface{}`;
* `ifaceMap` is `map[interface{}]interface{}`. -/
inductive Value where
  | scalar (s : Scalar)
  | seq (xs : List Value)
  | mapSlice (items : List (Scalar × Value))
  | strMap (entries : List (String × Value))
  | ifaceMap (entries : List (Scalar × Value))

mutual
/-- Boolean structural equality on values. -/
def Value.beq : Value → Value → Bool
  | .scalar a, w => match w with
    | .scalar b => decide (a = b)
    | _ => false
  | .seq xs, w => match w with
    | .seq ys => Value.beqList xs ys
    | _ => false
  | .mapSlice xs, w => match w with
    | .mapSlice ys => Value.beqItems xs ys
    | _ => false
  | .strMap xs, w => match w with
    | .strMap ys => Value.beqEntries xs ys
    | _ => false
  | .ifaceMap xs, w => match w with
    | .ifaceMap ys => Value.beqItems xs ys
    | _ => false
termination_by structural v => v
/-- Boolean structural equality on sequences of values. -/
def Value.beqList : List Value → List Value → Bool
  | [], w => w.isEmpty
  | x :: xs, w => match w with
    | y :: ys => Value.beq x y && Value.beqList xs ys
    | [] => false
termination_by structural v => v
/-- Boolean structural equality on scalar-keyed pair lists. -/
def Value.beqItems : List (Scalar × Value) → List (Scalar × Value) → Bool
  | [], w => w.isEmpty
  | (k, x) :: xs, w => match w with
    | (l, y) :: ys => decide (k = l) && Value.beq x y && Value.beqItems xs ys
    | [] => false
termination_by structural v => v
/-- Boolean structural equality on string-keyed pair lists. -/
def Value.beqEntries : List (String × Value) → List (String × Value) → Bool
  | [], w => w.isEmpty
  | (k, x) :: xs, w => match w with
    | (l, y) :: ys => decide (k = l) && Value.beq x y && Value.beqEntries xs ys
    | [] => false
termination_by structural v => v
end

mutual
theorem Value.beq_iff : ∀ a b : Value, Value.beq a b = true ↔ a = b
  | .scalar a, b => by cases b <;> simp [Value.beq]
  | .seq xs, b => by cases b <;> simp [Value.beq, Value.beqList_iff xs]
  | .mapSlice xs, b => by cases b <;> simp [Value.beq, Value.beqItems_iff xs]
  | .strMap xs, b => by cases b <;> simp [Value.beq, Value.beqEntries_iff xs]
  | .ifaceMap xs, b => by cases b <;> simp [Value.beq, Value.beqItems_iff xs]
theorem Value.beqList_iff : ∀ a b : List Value, Value.beqList a b = true ↔ a = b
  | [], b => by cases b <;> simp [Value.beqList]
  | x :: xs, b => by
    cases b <;> simp [Value.beqList, Value.beq_iff x, Value.beqList_iff xs]
theorem Value.beqItems_iff :
    ∀ a b : List (Scalar × Value), Value.beqItems a b = true ↔ a = b
  | [], b => by cases b <;> simp [Value.beqItems]
  | (k, x) :: xs, b => by
    cases b with
    | nil => simp [Value.beqItems]
    | cons p ys =>
      cases p
      simp [Value.beqItems, Value.beq_iff x, Value.beqItems_iff xs, and_assoc]
theorem Value.beqEntries_iff :
    ∀ a b : List (String × Value), Value.beqEntries a b = true ↔ a = b
  | [], b => by cases b <;> simp [Value.beqEntries]
  | (k, x) :: xs, b => by
    cases b with
    | nil => simp [Value.beqEntries]
    | cons p ys =>
      cases p
      simp [Value.beqEntries, Value.beq_iff x, Value.beqEntries_iff xs, and_assoc]
end

instance : DecidableEq Value := fun a b =>
  decidable_of_iff _ (Value.beq_iff a b)

/-- The text `fmt.Sprint(k)` (equally `fmt.Sprintf("%v", k)`) of a scalar:
a string is itself, an integer is its decimal numeral, a boolean is `true`
or `false`, and nil is `<nil>`. -/
def sprint : Scalar → String
  | .null => "<nil>"
  | .bool true => "true"
  | .bool false => "false"
  | .int i => toString i
  | .str s => s

/-! ## `sort.Slice` -/

/-- Go's `<` on strings, on the character lists of the two strings: the first
position where they differ decides, and a proper prefix is smaller. Go compares
bytes; for UTF-8 text that is the order of the code points. -/
def textLess : List Char → List Char → Bool
  | _, [] => false
  | [], _ :: _ => true
  | a :: as, b :: bs =>
    if a.toNat < b.toNat then true
    else if b.toNat < a.toNat then false
    else textLess as bs

/-- One pass of the inner loop of insertion sort: `x` moves towards the front
past every element it is less than, into an already sorted prefix. -/
def insertLess {α : Type} (less : α → α → Bool) (x : α) : List α → List α
  | [] => [x]
  | y :: ys => if less x y then x :: y :: ys else y :: insertLess less x ys

/-- The routine `sort.Slice(s, less)`. The library promises a slice sorted by
`less` holding the same elements, and does not promise stability; this is the
insertion sort the library runs on short slices, which leaves an already sorted
slice as it is. -/
def sortSlice {α : Type} (less : α → α → Bool) (l : List α) : List α :=
  l.foldl (fun acc x => insertLess less x acc) []

/-! ## `SortMapSlice` -/

/-- The comparison closure of `SortMapSlice`:
`fmt.Sprint(ms[i].Key) < fmt.Sprint(ms[j].Key)`. -/
def keyLess (a b : Scalar × Value) : Bool :=
  textLess (sprint a.1).toList (sprint b.1).toList

mutual
/-- The `for _, item := range ms` loop of `SortMapSlice`: every item keeps its
key and has its value treated by `sortItemValue`. -/
def sortItems : List (Scalar × Value) → List (Scalar × Value)
  | [] => []
  | (k, v) :: rest => (k, sortItemValue v) :: sortItems rest
termination_by structural ms => ms
/-- The body of the loop over items: a nested `MapSlice` is sorted by the
recursive call `SortMapSlice(nestedMS)`, a `[]interface{}` has its elements
treated by `sortSeqElem`, any other value is left alone. -/
def sortItemValue : Value → Value
  | .mapSlice nestedMS => .mapSlice (sortSlice keyLess (sortItems nestedMS))
  | .seq xs => .seq (sortSeqElems xs)
  | v => v
termination_by structural v => v
/-- The `for _, vItem := range item.Value.([]interface{})` loop. -/
def sortSeqElems : List Value → List Value
  | [] => []
  | vItem :: rest => sortSeqElem vItem :: sortSeqElems rest
termination_by structural xs => xs
/-- The body of the loop over sequence elements: an element that is a
`MapSlice` is sorted by `SortMapSlice(itemMS)`; there is no other case. -/
def sortSeqElem : Value → Value
  | .mapSlice itemMS => .mapSlice (sortSlice keyLess (sortItems itemMS))
  | v => v
termination_by structural v => v
end

/-- The function `SortMapSlice(ms)`, returning the slice as the call leaves it.
The nested slices share their backing arrays with `ms`, so sorting them in
place is visible in `ms`. The loop over the items does not touch the keys, so
it is run here before the top-level sort, which lets the recursion follow the
shape of the input; `SortMapSlice_sort_then_loop` shows that this is the
source's order, sort first and loop second. -/
def SortMapSlice (ms : List (Scalar × Value)) : List (Scalar × Value) :=
  sortSlice keyLess (sortItems ms)

/-! ## `cleanUpMapValue` -/

/-- The assignment `m[k] = v` on a `map[string]interface{}`: an existing key
has its value replaced, a new key is added. -/
def mapSet (m : List (String × Value)) (k : String) (v : Value) :
    List (String × Value) :=
  match m with
  | [] => [(k, v)]
  | (k', v') :: rest =>
    if k' = k then (k, v) :: rest else (k', v') :: mapSet rest k v

mutual
/-- The function `cleanUpMapValue`: a type switch with the cases
`[]interface{}` and `map[interface{}]interface{}`, and `default: return v`. -/
def cleanUpMapValue : Value → Value
  | .seq xs => .seq (cleanUpInterfaceArray xs)
  | .ifaceMap m => .strMap (cleanUpInterfaceMapLoop m [])
  | v => v
termination_by structural v => v
/-- The loop of `cleanUpInterfaceMap`:
`result[fmt.Sprintf("%v", k)] = cleanUpMapValue(v)` for every entry of `in`,
with `result` as built so far in the second argument. -/
def cleanUpInterfaceMapLoop :
    List (Scalar × Value) → List (String × Value) → List (String × Value)
  | [], result => result
  | (k, v) :: rest, result =>
    cleanUpInterfaceMapLoop rest (mapSet result (sprint k) (cleanUpMapValue v))
termination_by structural m => m
/-- The function `cleanUpInterfaceArray`: `result[i] = cleanUpMapValue(v)`. -/
def cleanUpInterfaceArray : List Value → List Value
  | [] => []
  | v :: rest => cleanUpMapValue v :: cleanUpInterfaceArray rest
termination_by structural xs => xs
end

/-- The function `cleanUpInterfaceMap`: the loop started on an empty `result`. -/
def cleanUpInterfaceMap (m : List (Scalar × Value)) : List (String × Value) :=
  cleanUpInterfaceMapLoop m []

/-! ## `ReleaseRevision` -/

/-- The fields of `release.Release` that are plain data; `Version` is the
revision counter. -/
structure Release where
  Name : String
  Version : Int
  Namespace : String
deriving DecidableEq, Repr

/-- The function `ReleaseRevision(rel *release.Release)`; a nil pointer is
`none`. -/
def ReleaseRevision (rel : Option Release) : Int :=
  match rel with
  | none => 0
  | some r => r.Version


/-! ## `crypto/sha1` and `fmt.Sprintf("%x", ...)` -/

/-- 32-bit rotation to the left, `bits.RotateLeft32`. -/
def rotl32 (x n : Nat) : Nat :=
  ((x <<< n) ||| (x >>> (32 - n))) % 2 ^ 32

/-- The five 32-bit chaining words of SHA-1. -/
structure Sha1State where
  h0 : Nat
  h1 : Nat
  h2 : Nat
  h3 : Nat
  h4 : Nat
deriving DecidableEq, Repr

/-- The initial chaining value of SHA-1. -/
def sha1Init : Sha1State :=
  ⟨0x67452301, 0xEFCDAB89, 0x98BADCFE, 0x10325476, 0xC3D2E1F0⟩

/-- The 64-bit big-endian encoding of a number, eight bytes. -/
def bigEndian64 (n : Nat) : List Nat :=
  [(n >>> 56) % 256, (n >>> 48) % 256, (n >>> 40) % 256, (n >>> 32) % 256,
   (n >>> 24) % 256, (n >>> 16) % 256, (n >>> 8) % 256, n % 256]

/-- SHA-1 padding: the byte `0x80`, zero bytes up to 56 modulo 64, and the
length of the message in bits. -/
def sha1Pad (msg : List Nat) : List Nat :=
  msg ++ [0x80] ++ List.replicate ((119 - msg.length % 64) % 64) 0
    ++ bigEndian64 (msg.length * 8)

/-- Big-endian 32-bit words of a byte string, four bytes a word. -/
def beWords : List Nat → List Nat
  | a :: b :: c :: d :: rest =>
    ((a % 256) <<< 24 ||| (b % 256) <<< 16 ||| (c % 256) <<< 8 ||| (d % 256))
      :: beWords rest
  | _ => []

/-- The message schedule grown by `n` more words:
`w[t] = rotl1 (w[t-3] xor w[t-8] xor w[t-14] xor w[t-16])`. -/
def sha1Extend : Nat → List Nat → List Nat
  | 0, w => w
  | n + 1, w =>
    let t := w.length
    sha1Extend n (w ++ [rotl32 (w.getD (t - 3) 0 ^^^ w.getD (t - 8) 0
      ^^^ w.getD (t - 14) 0 ^^^ w.getD (t - 16) 0) 1])

/-- The working variables a, b, c, d, e. -/
structure Sha1Vars where
  a : Nat
  b : Nat
  c : Nat
  d : Nat
  e : Nat

/-- Round `t` of the compression function on schedule word `w`. -/
def sha1Round (t : Nat) (s : Sha1Vars) (w : Nat) : Sha1Vars :=
  let f :=
    if t < 20 then (s.b &&& s.c) ||| ((s.b ^^^ 0xFFFFFFFF) &&& s.d)
    else if t < 40 then s.b ^^^ s.c ^^^ s.d
    else if t < 60 then ((s.b ||| s.c) &&& s.d) ||| (s.b &&& s.c)
    else s.b ^^^ s.c ^^^ s.d
  let k :=
    if t < 20 then 0x5A827999
    else if t < 40 then 0x6ED9EBA1
    else if t < 60 then 0x8F1BBCDC
    else 0xCA62C1D6
  ⟨(rotl32 s.a 5 + f + s.e + w + k) % 2 ^ 32, s.a, rotl32 s.b 30, s.c, s.d⟩

/-- The rounds over a schedule, numbered from `t`. -/
def sha1Rounds : Nat → Sha1Vars → List Nat → Sha1Vars
  | _, s, [] => s
  | t, s, w :: ws => sha1Rounds (t + 1) (sha1Round t s w) ws

/-- The compression of one 64-byte block into the chaining value. -/
def sha1Block (h : Sha1State) (block : List Nat) : Sha1State :=
  let w := sha1Extend 64 (beWords block)
  let v := sha1Rounds 0 ⟨h.h0, h.h1, h.h2, h.h3, h.h4⟩ w
  ⟨(h.h0 + v.a) % 2 ^ 32, (h.h1 + v.b) % 2 ^ 32, (h.h2 + v.c) % 2 ^ 32,
   (h.h3 + v.d) % 2 ^ 32, (h.h4 + v.e) % 2 ^ 32⟩

/-- The chaining value after the 64-byte blocks of `p`; `fuel` bounds the
number of blocks. -/
def sha1Blocks : Nat → Sha1State → List Nat → Sha1State
  | 0, h, _ => h
  | fuel + 1, h, p =>
    if p.length < 64 then h
    else sha1Blocks fuel (sha1Block h (p.take 64)) (p.drop 64)

/-- The four big-endian bytes of a 32-bit word. -/
def wordBytes (w : Nat) : List Nat :=
  [(w >>> 24) % 256, (w >>> 16) % 256, (w >>> 8) % 256, w % 256]

/-- Modelled from the spec: `crypto/sha1` is a library outside the source tree;
the spec calls it "a fixed, well-known 160-bit cryptographic hash" whose digest
of the empty input is `da39a3ee5e6b4b0d3255bfef95601890afd80709`. This is
`sha1.Sum`, SHA-1 as standardised (FIPS 180-4), from bytes to the 20 bytes of
the digest. -/
def sha1Sum (msg : List Nat) : List Nat :=
  let p := sha1Pad msg
  let h := sha1Blocks p.length sha1Init p
  wordBytes h.h0 ++ wordBytes h.h1 ++ wordBytes h.h2 ++ wordBytes h.h3
    ++ wordBytes h.h4

/-- One lowercase hexadecimal digit. -/
def hexDigit (d : Nat) : Char :=
  if d < 10 then Char.ofNat (48 + d) else Char.ofNat (87 + d)

/-- The format `fmt.Sprintf("%x", b)` of a byte array: two lowercase
hexadecimal digits a byte, nothing in between. -/
def sprintfHex (bytes : List Nat) : String :=
  String.mk (bytes.flatMap (fun b => [hexDigit (b / 16 % 16), hexDigit (b % 16)]))

/-! ## The YAML packages, `copyValues` and the checksums -/

/-- The YAML routines the file calls. They are libraries outside the source
tree; the checksum functions take them as a parameter, and what is proved of
the checksums holds whatever these routines return. -/
structure Codec where
  /-- The method `chartutil.Values.YAML()`: the text of the document; `none` is
  a returned error, with which the returned string is empty. -/
  valuesYAML : List (String × Value) → Option (List Nat)
  /-- The routine `goyaml.Marshal`: `none` is a returned error, with which the
  returned bytes are nil. -/
  marshal : Value → Option (List Nat)
  /-- The routine `goyaml.Unmarshal(bytes, newValues)` on a fresh
  `map[string]interface{}`: the entries of the map after the call. The error
  it returns is not part of the result because the caller drops it. -/
  unmarshal : List Nat → List (String × Value)

mutual
/-- The routine `yaml.JSONObjectToYAMLObject` of `sigs.k8s.io/yaml`: a
`map[string]interface{}` becomes a `MapSlice` holding one item per entry in
the order the `range` loop over the map meets them. -/
def JSONObjectToYAMLObject : List (String × Value) → List (Scalar × Value)
  | [] => []
  | (k, v) :: rest => (.str k, jsonToYAMLValue v) :: JSONObjectToYAMLObject rest
termination_by structural j => j
/-- Its helper `jsonToYAMLValue`: maps become `MapSlice`s, `[]interface{}`
slices stay slices with every element converted, at any depth; other values
are unchanged (integers keep their value). -/
def jsonToYAMLValue : Value → Value
  | .strMap j => .mapSlice (JSONObjectToYAMLObject j)
  | .seq xs => .seq (jsonToYAMLValues xs)
  | v => v
termination_by structural v => v
/-- The elements of a slice, each converted by `jsonToYAMLValue`. -/
def jsonToYAMLValues : List Value → List Value
  | [] => []
  | v :: rest => jsonToYAMLValue v :: jsonToYAMLValues rest
termination_by structural xs => xs
end

/-- The call `goyaml.Unmarshal(copiedValues, newValues)` on the fresh map of
`copyValues`: the entries of the map after the call. No bytes hold no document,
so nothing is assigned; otherwise the entries are the ones the decoder of the
codec assigns. The error is dropped by the caller. -/
def decodeFresh (c : Codec) (copiedValues : List Nat) : List (String × Value) :=
  if copiedValues.isEmpty then [] else c.unmarshal copiedValues

/-- The function `copyValues` on a tree, on which the encoder does not panic:
marshal `in`, unmarshal the bytes into a fresh map, and replace the value at
every key of that map by its `cleanUpMapValue`. Both errors are dropped; a
failed marshal leaves nil bytes. -/
def copyValuesTree (c : Codec) (values : List (String × Value)) :
    List (String × Value) :=
  let copiedValues := (c.marshal (.strMap values)).getD []
  let newValues := decodeFresh c copiedValues
  newValues.map (fun e => (e.1, cleanUpMapValue e.2))

/-- A value held by the `map[string]interface{}` given to `copyValues`: a
tree, or a Go value of a kind the YAML encoder has no encoding for, such as a
channel or a function. -/
inductive GoValue where
  | tree (v : Value)
  | noEncoding

/-- The entries as trees, when every value is one; `none` when a value has no
encoding. -/
def treeValues : List (String × GoValue) → Option (List (String × Value))
  | [] => some []
  | (k, .tree v) :: rest =>
    match treeValues rest with
    | some t => some ((k, v) :: t)
    | none => none
  | (_, .noEncoding) :: _ => none

/-- The function `copyValues`; `none` is a panic. On a value without an
encoding `goyaml.Marshal` panics with a plain string, which its own recover
hands on, and `copyValues` has no recover. Otherwise the call returns the map
of `copyValuesTree`; there is no error result. -/
def copyValues (c : Codec) (values : List (String × GoValue)) :
    Option (List (String × Value)) :=
  match treeValues values with
  | none => none
  | some t => some (copyValuesTree c t)

/-- The function `ValuesChecksum`. A nil map and an empty map both have length
zero and are both the empty list. -/
def ValuesChecksum (c : Codec) (values : List (String × Value)) : String :=
  let s : List Nat :=
    if values.length ≠ 0 then (c.valuesYAML values).getD [] else []
  sprintfHex (sha1Sum s)

/-- The function `OrderedValuesChecksum`, on a tree; `copyValuesTree` is what
`copyValues` returns there. -/
def OrderedValuesChecksum (c : Codec) (values : List (String × Value)) :
    String :=
  let s : List Nat :=
    if values.length ≠ 0 then
      let msValues := JSONObjectToYAMLObject (copyValuesTree c values)
      (c.marshal (.mapSlice (SortMapSlice msValues))).getD []
    else []
  sprintfHex (sha1Sum s)

/-! ## Predicates used in the statements -/

/-- The pairs of an ordered mapping are in ascending order of the text of
their keys: no pair has a key whose text is less than that of an earlier
pair. -/
def keysAscending : List (Scalar × Value) → Bool
  | [] => true
  | a :: rest => rest.all (fun b => !keyLess b a) && keysAscending rest

mutual
/-- Every `MapSlice` node of the tree, at every depth, has ascending keys. -/
def allSorted : Value → Bool
  | .scalar _ => true
  | .seq xs => allSortedList xs
  | .mapSlice ms => keysAscending ms && allSortedItems ms
  | .strMap es => allSortedEntries es
  | .ifaceMap es => allSortedItems es
termination_by structural v => v
/-- The predicate `allSorted` on every element of a sequence. -/
def allSortedList : List Value → Bool
  | [] => true
  | v :: rest => allSorted v && allSortedList rest
termination_by structural xs => xs
/-- The predicate `allSorted` on every value of scalar-keyed pairs. -/
def allSortedItems : List (Scalar × Value) → Bool
  | [] => true
  | (_, v) :: rest => allSorted v && allSortedItems rest
termination_by structural xs => xs
/-- The predicate `allSorted` on every value of string-keyed pairs. -/
def allSortedEntries : List (String × Value) → Bool
  | [] => true
  | (_, v) :: rest => allSorted v && allSortedEntries rest
termination_by structural xs => xs
end

mutual
/-- The ordered mappings that `SortMapSlice` reaches from the items of a
slice all have ascending keys: those that are the value of a pair, at any
depth of such nesting, and those that are an element of a sequence that is
the value of a pair. -/
def reachSortedItems : List (Scalar × Value) → Bool
  | [] => true
  | (_, v) :: rest => reachSortedValue v && reachSortedItems rest
termination_by structural ms => ms
/-- The predicate on the value of a pair. -/
def reachSortedValue : Value → Bool
  | .mapSlice ms => keysAscending ms && reachSortedItems ms
  | .seq xs => reachSortedElems xs
  | _ => true
termination_by structural v => v
/-- The predicate on the elements of a sequence that is the value of a pair. -/
def reachSortedElems : List Value → Bool
  | [] => true
  | v :: rest => reachSortedElem v && reachSortedElems rest
termination_by structural xs => xs
/-- The predicate on one element of such a sequence. -/
def reachSortedElem : Value → Bool
  | .mapSlice ms => keysAscending ms && reachSortedItems ms
  | _ => true
termination_by structural v => v
end

/-- An ordered mapping is sorted wherever `SortMapSlice` looks. -/
def reachSorted (ms : List (Scalar × Value)) : Bool :=
  keysAscending ms && reachSortedItems ms

mutual
/-- The tree holds a `map[interface{}]interface{}` node at some depth. -/
def hasIfaceMap : Value → Bool
  | .scalar _ => false
  | .seq xs => hasIfaceMapList xs
  | .mapSlice ms => hasIfaceMapItems ms
  | .strMap es => hasIfaceMapEntries es
  | .ifaceMap _ => true
termination_by structural v => v
/-- Some element of the sequence holds such a node. -/
def hasIfaceMapList : List Value → Bool
  | [] => false
  | v :: rest => hasIfaceMap v || hasIfaceMapList rest
termination_by structural xs => xs
/-- Some value of the scalar-keyed pairs holds such a node. -/
def hasIfaceMapItems : List (Scalar × Value) → Bool
  | [] => false
  | (_, v) :: rest => hasIfaceMap v || hasIfaceMapItems rest
termination_by structural xs => xs
/-- Some value of the string-keyed pairs holds such a node. -/
def hasIfaceMapEntries : List (String × Value) → Bool
  | [] => false
  | (_, v) :: rest => hasIfaceMap v || hasIfaceMapEntries rest
termination_by structural xs => xs
end

mutual
/-- No `map[interface{}]interface{}` lies beneath a `map[string]interface{}`
or a `MapSlice` of the tree: the two kinds of node the type switch of
`cleanUpMapValue` has no case for. -/
def noIfaceBelowOther : Value → Bool
  | .scalar _ => true
  | .seq xs => noIfaceBelowOtherList xs
  | .mapSlice ms => !hasIfaceMapItems ms
  | .strMap es => !hasIfaceMapEntries es
  | .ifaceMap es => noIfaceBelowOtherItems es
termination_by structural v => v
/-- The predicate on every element of a sequence. -/
def noIfaceBelowOtherList : List Value → Bool
  | [] => true
  | v :: rest => noIfaceBelowOther v && noIfaceBelowOtherList rest
termination_by structural xs => xs
/-- The predicate on every value of the entries of a map. -/
def noIfaceBelowOtherItems : List (Scalar × Value) → Bool
  | [] => true
  | (_, v) :: rest => noIfaceBelowOther v && noIfaceBelowOtherItems rest
termination_by structural xs => xs
end

/-- The scalar is a string. -/
def Scalar.isStr : Scalar → Bool
  | .str _ => true
  | _ => false

mutual
/-- Every `map[interface{}]interface{}` node of the tree, at every depth, has
only strings as keys. -/
def stringKeyed : Value → Bool
  | .scalar _ => true
  | .seq xs => stringKeyedList xs
  | .mapSlice ms => stringKeyedItems ms
  | .strMap es => stringKeyedEntries es
  | .ifaceMap es => es.all (fun e => e.1.isStr) && stringKeyedItems es
termination_by structural v => v
/-- The predicate on every element of a sequence. -/
def stringKeyedList : List Value → Bool
  | [] => true
  | v :: rest => stringKeyed v && stringKeyedList rest
termination_by structural xs => xs
/-- The predicate on every value of scalar-keyed pairs. -/
def stringKeyedItems : List (Scalar × Value) → Bool
  | [] => true
  | (_, v) :: rest => stringKeyed v && stringKeyedItems rest
termination_by structural xs => xs
/-- The predicate on every value of string-keyed pairs. -/
def stringKeyedEntries : List (String × Value) → Bool
  | [] => true
  | (_, v) :: rest => stringKeyed v && stringKeyedEntries rest
termination_by structural xs => xs
end

/-- The keys of a pair list are pairwise different. -/
def distinctKeys {κ : Type} [DecidableEq κ] : List (κ × Value) → Bool
  | [] => true
  | a :: rest => rest.all (fun b => decide (b.1 ≠ a.1)) && distinctKeys rest

mutual
/-- The tree is a Go value: every map node, of either key type and at every
depth, has pairwise different keys. -/
def validMaps : Value → Bool
  | .scalar _ => true
  | .seq xs => validMapsList xs
  | .mapSlice ms => validMapsItems ms
  | .strMap es => distinctKeys es && validMapsEntries es
  | .ifaceMap es => distinctKeys es && validMapsItems es
termination_by structural v => v
/-- The predicate on every element of a sequence. -/
def validMapsList : List Value → Bool
  | [] => true
  | v :: rest => validMaps v && validMapsList rest
termination_by structural xs => xs
/-- The predicate on every value of scalar-keyed pairs. -/
def validMapsItems : List (Scalar × Value) → Bool
  | [] => true
  | (_, v) :: rest => validMaps v && validMapsItems rest
termination_by structural xs => xs
/-- The predicate on every value of string-keyed pairs. -/
def validMapsEntries : List (String × Value) → Bool
  | [] => true
  | (_, v) :: rest => validMaps v && validMapsEntries rest
termination_by structural xs => xs
end

mutual
/-- The tree with the static key type of its maps forgotten: a
`map[string]interface{}` is shown as the `map[interface{}]interface{}` with
the same keys, as strings, and the same values. Two trees are structurally
equal when their views are equal. -/
def keyView : Value → Value
  | .scalar s => .scalar s
  | .seq xs => .seq (keyViewList xs)
  | .mapSlice ms => .mapSlice (keyViewItems ms)
  | .strMap es => .ifaceMap (keyViewEntries es)
  | .ifaceMap es => .ifaceMap (keyViewItems es)
termination_by structural v => v
/-- The view of every element of a sequence. -/
def keyViewList : List Value → List Value
  | [] => []
  | v :: rest => keyView v :: keyViewList rest
termination_by structural xs => xs
/-- The view of every value of scalar-keyed pairs. -/
def keyViewItems : List (Scalar × Value) → List (Scalar × Value)
  | [] => []
  | (k, v) :: rest => (k, keyView v) :: keyViewItems rest
termination_by structural xs => xs
/-- The view of string-keyed pairs: the key becomes a string scalar. -/
def keyViewEntries : List (String × Value) → List (Scalar × Value)
  | [] => []
  | (k, v) :: rest => (.str k, keyView v) :: keyViewEntries rest
termination_by structural xs => xs
end

/-- The character is a lowercase hexadecimal digit, `0`-`9` or `a`-`f`. -/
def isLowerHex (ch : Char) : Bool :=
  (48 ≤ ch.toNat && ch.toNat ≤ 57) || (97 ≤ ch.toNat && ch.toNat ≤ 102)


/-! ## Concrete inputs -/

/-- A mapping with the integer keys 9 and 10, in that order. -/
def nineTen : List (Scalar × Value) :=
  [(.int 9, .scalar (.str "nine")), (.int 10, .scalar (.str "ten"))]

/-- The ordered mapping `{b: 1, a: 2}`. -/
def pairBA : Value :=
  .mapSlice [(.str "b", .scalar (.int 1)), (.str "a", .scalar (.int 2))]

/-- The ordered mapping `{a: 2, b: 1}`. -/
def pairAB : Value :=
  .mapSlice [(.str "a", .scalar (.int 2)), (.str "b", .scalar (.int 1))]

/-- The document `x: [[{b: 1, a: 2}]]` as an ordered mapping: a mapping inside
a sequence that is directly inside another sequence. -/
def seqInSeqDoc : List (Scalar × Value) :=
  [(.str "x", .seq [.seq [pairBA]])]

/-- The document `y: 0` and `x: [{b: 1, a: 2}, [{b: 1, a: 2}], 7]`: a sequence
holding a mapping, a sequence and a scalar. -/
def mixedSeqDoc : List (Scalar × Value) :=
  [(.str "y", .scalar (.int 0)),
   (.str "x", .seq [pairBA, .seq [pairBA], .scalar (.int 7)])]

/-- The value at the key `x` of the values `x: [[{a: 2, b: 1}]]` as the YAML
decoder hands it to `copyValues`, the pairs of the inner map in the order in
which `range` meets them, here `b` then `a`. -/
def decodedSeqInSeqBA : Value :=
  .seq [.seq [.ifaceMap [(.str "b", .scalar (.int 1)), (.str "a", .scalar (.int 2))]]]

/-- The same value of the same map, `range` meeting `a` then `b`. -/
def decodedSeqInSeqAB : Value :=
  .seq [.seq [.ifaceMap [(.str "a", .scalar (.int 2)), (.str "b", .scalar (.int 1))]]]

/-- A `map[string]interface{}` holding a `map[interface{}]interface{}`. -/
def ifaceBelowStrMap : Value :=
  .strMap [("a", .ifaceMap [(.int 1, .scalar (.int 2))])]

/-- A tree as the YAML decoder builds it: sequences and
`map[interface{}]interface{}` nodes, here with keys of several types. -/
def decodedTree : Value :=
  .seq [.ifaceMap [(.int 1, .scalar (.str "one")),
                   (.str "m", .ifaceMap [(.bool true, .seq [.ifaceMap []])])],
        .scalar .null]

/-- A tree whose `map[interface{}]interface{}` nodes all have string keys. -/
def stringKeyedTree : Value :=
  .seq [.ifaceMap [(.str "b", .scalar (.int 1)),
                   (.str "a", .ifaceMap [(.str "c", .seq [.scalar .null])])],
        .strMap [("k", .scalar (.bool false))]]

/-- A codec whose every call fails or decodes nothing. -/
def failingCodec : Codec :=
  ⟨fun _ => none, fun _ => none, fun _ => []⟩

/-! ## Lookup, sameness up to order, and a model of `Values.YAML()` -/

/-- The lookup `m[k]` on a `map[string]interface{}`; `none` when the key is
absent. -/
def mapGet (m : List (String × Value)) (k : String) : Option Value :=
  match m with
  | [] => none
  | (k', v) :: rest => if k' = k then some v else mapGet rest k

mutual
/-- Two trees have the same content up to the order of the pairs of their
ordered mappings, at every nesting level: scalars are equal, sequences have
the same length with elements the same position by position, and the pairs of
an ordered mapping are, in some order, the pairs of the other with the same
keys and values that are the same in this sense. Go maps are values without an
order of their own and are compared by equality. -/
def sameValue : Value → Value → Prop
  | .seq xs, w => ∃ ys, w = .seq ys ∧ sameElems xs ys
  | .mapSlice ms, w =>
    ∃ ms' l, w = .mapSlice ms' ∧ List.Perm l ms' ∧ samePairs ms l
  | .scalar s, w => w = .scalar s
  | .strMap es, w => w = .strMap es
  | .ifaceMap es, w => w = .ifaceMap es
termination_by structural v => v
/-- The relation `sameValue` between two sequences, position by position. -/
def sameElems : List Value → List Value → Prop
  | [], ys => ys = []
  | x :: xs, ys => ∃ y ys', ys = y :: ys' ∧ sameValue x y ∧ sameElems xs ys'
termination_by structural xs => xs
/-- Two pair lists with the same keys in the same positions and values
related by `sameValue`. -/
def samePairs : List (Scalar × Value) → List (Scalar × Value) → Prop
  | [], l => l = []
  | (k, v) :: rest, l =>
    ∃ w l', l = (k, w) :: l' ∧ sameValue v w ∧ samePairs rest l'
termination_by structural ms => ms
end

/-- Two ordered mappings have the same content up to the order of pairs at
every nesting level: the pairs of `b` are a reordering of pairs that match
those of `a` key by key, with values the same up to order. -/
def sameMapping (a b : List (Scalar × Value)) : Prop :=
  ∃ l, List.Perm l b ∧ samePairs a l

/-- The texts of the keys of the pairs are pairwise different. -/
def keyTextsDistinct : List (Scalar × Value) → Bool
  | [] => true
  | a :: rest =>
    rest.all (fun b => decide (sprint b.1 ≠ sprint a.1)) && keyTextsDistinct rest

mutual
/-- Every ordered mapping of the tree, at every depth through sequences and
ordered mappings, has keys with pairwise different texts. -/
def distinctKeyTexts : Value → Bool
  | .mapSlice ms => keyTextsDistinct ms && distinctKeyTextsItems ms
  | .seq xs => distinctKeyTextsList xs
  | _ => true
termination_by structural v => v
/-- The predicate on every element of a sequence. -/
def distinctKeyTextsList : List Value → Bool
  | [] => true
  | v :: rest => distinctKeyTexts v && distinctKeyTextsList rest
termination_by structural xs => xs
/-- The predicate on every value of the pairs. -/
def distinctKeyTextsItems : List (Scalar × Value) → Bool
  | [] => true
  | (_, v) :: rest => distinctKeyTexts v && distinctKeyTextsItems rest
termination_by structural ms => ms
end

/-- The value is a sequence. -/
def Value.isSeq : Value → Bool
  | .seq _ => true
  | _ => false

mutual
/-- No sequence of the tree, at any depth through sequences and ordered
mappings, has a sequence as a direct element. -/
def noSeqInSeq : Value → Bool
  | .mapSlice ms => noSeqInSeqItems ms
  | .seq xs => noSeqInSeqElems xs
  | _ => true
termination_by structural v => v
/-- The elements of a sequence: none is a sequence, and the predicate holds
of each. -/
def noSeqInSeqElems : List Value → Bool
  | [] => true
  | v :: rest => !v.isSeq && noSeqInSeq v && noSeqInSeqElems rest
termination_by structural xs => xs
/-- The predicate on every value of the pairs. -/
def noSeqInSeqItems : List (Scalar × Value) → Bool
  | [] => true
  | (_, v) :: rest => noSeqInSeq v && noSeqInSeqItems rest
termination_by structural ms => ms
end

/-- A key that the YAML encoder writes without quotes and orders as text:
lowercase letters only, not empty, and none of the words YAML reads as a
boolean or as null. -/
def plainKey (k : String) : Bool :=
  !k.toList.isEmpty
    && k.toList.all (fun ch => 97 ≤ ch.toNat && ch.toNat ≤ 122)
    && !(["y", "n", "yes", "no", "on", "off", "true", "false", "null"].contains k)

/-- One line `key: value` of a YAML document, as bytes, for a plain key and an
integer value; nothing else is in the modelled fragment. -/
def flatLine : String × Value → Option (List Nat)
  | (k, .scalar (.int i)) =>
    if plainKey k then
      some (k.toList.map Char.toNat ++ [58, 32]
        ++ (toString i).toList.map Char.toNat ++ [10])
    else none
  | _ => none

/-- The lines of the entries, one after the other in the order given. -/
def flatDocument : List (String × Value) → Option (List Nat)
  | [] => some []
  | e :: rest =>
    match flatLine e, flatDocument rest with
    | some line, some doc => some (line ++ doc)
    | _, _ => none

/-- The method `chartutil.Values.YAML()` on the fragment of flat maps from
plain keys to integers. It is `yaml.Marshal` of `sigs.k8s.io/yaml`, which
encodes the map as JSON and converts that to YAML; the keys of a Go map are
written in sorted order, one line `key: value` each, and the empty map is
`{}`. A tree outside the fragment is not modelled and is given as an error. -/
def flatValuesYAML (values : List (String × Value)) : Option (List Nat) :=
  if values.isEmpty then some [123, 125, 10]
  else flatDocument
    (sortSlice (fun a b => textLess a.1.toList b.1.toList) values)

/-- The document of the spec's words for the same fragment: the lines with
the keys in insertion order, no reordering. -/
def insertionOrderYAML (values : List (String × Value)) : Option (List Nat) :=
  flatDocument values

/-- A codec whose `YAML()` is `flatValuesYAML`; `ValuesChecksum` calls no other
routine, and the other two fail. -/
def flatCodec : Codec :=
  ⟨flatValuesYAML, fun _ => none, fun _ => []⟩

/-- The values `b: 1`, `a: 2`, given in that order. -/
def valuesBA : List (String × Value) :=
  [("b", .scalar (.int 1)), ("a", .scalar (.int 2))]

/-- The values `a: 2`, `b: 1`, given in that order. -/
def valuesAB : List (String × Value) :=
  [("a", .scalar (.int 2)), ("b", .scalar (.int 1))]

/-- The bytes of the text `a: 2`, `b: 1`, a line each. -/
def textAB : List Nat := [97, 58, 32, 50, 10, 98, 58, 32, 49, 10]

/-- The bytes of the text `b: 1`, `a: 2`, a line each. -/
def textBA : List Nat := [98, 58, 32, 49, 10, 97, 58, 32, 50, 10]

/-- The ordered mapping `{x: {b: 1, a: 2}}`. -/
def nestedBA : List (Scalar × Value) := [(.str "x", pairBA)]

/-- The ordered mapping `{x: {a: 2, b: 1}}`. -/
def nestedAB : List (Scalar × Value) := [(.str "x", pairAB)]

/-- A `map[interface{}]interface{}` with the integer key 1 and the string key
`1`, met by `range` in that order. -/
def collidingKeys : List (Scalar × Value) :=
  [(.int 1, .scalar (.str "int")), (.str "1", .scalar (.str "string"))]

/-- A codec whose encoder fails and whose decoder finds no entry in no
bytes, and one entry otherwise. -/
def encodeFailsCodec : Codec :=
  ⟨fun _ => none, fun _ => none,
   fun bytes => if bytes.isEmpty then [] else [("k", .scalar .null)]⟩

/-! ## Decoder output, key-sorted encoders, and values without an encoding -/

mutual
/-- The tree is one the YAML decoder builds for `copyValues`: scalars,
`[]interface{}` sequences and `map[interface{}]interface{}` maps, at every
depth. These are the trees `cleanUpMapValue` is called on. -/
def decoderTree : Value → Bool
  | .scalar _ => true
  | .seq xs => decoderTreeList xs
  | .ifaceMap es => decoderTreeItems es
  | .mapSlice _ => false
  | .strMap _ => false
termination_by structural v => v
/-- The predicate on every element of a sequence. -/
def decoderTreeList : List Value → Bool
  | [] => true
  | v :: rest => decoderTree v && decoderTreeList rest
termination_by structural xs => xs
/-- The predicate on every value of the entries of a map. -/
def decoderTreeItems : List (Scalar × Value) → Bool
  | [] => true
  | (_, v) :: rest => decoderTree v && decoderTreeItems rest
termination_by structural ms => ms
end

mutual
/-- Every mapping node of the tree, at every depth, is a
`map[string]interface{}`: the tree is made of scalars, sequences and
string-keyed maps only. -/
def onlyStrMaps : Value → Bool
  | .scalar _ => true
  | .seq xs => onlyStrMapsList xs
  | .strMap es => onlyStrMapsEntries es
  | .mapSlice _ => false
  | .ifaceMap _ => false
termination_by structural v => v
/-- The predicate on every element of a sequence. -/
def onlyStrMapsList : List Value → Bool
  | [] => true
  | v :: rest => onlyStrMaps v && onlyStrMapsList rest
termination_by structural xs => xs
/-- The predicate on every value of string-keyed pairs. -/
def onlyStrMapsEntries : List (String × Value) → Bool
  | [] => true
  | (_, v) :: rest => onlyStrMaps v && onlyStrMapsEntries rest
termination_by structural es => es
end

/-- The order of two entries of a `map[string]interface{}` by their keys. -/
def entryLess (a b : String × Value) : Bool :=
  textLess a.1.toList b.1.toList

mutual
/-- The entries with every value in sorted key order, see `sortKeys`. -/
def sortKeysEntries : List (String × Value) → List (String × Value)
  | [] => []
  | (k, v) :: rest => (k, sortKeys v) :: sortKeysEntries rest
termination_by structural es => es
/-- The tree with the entries of every `map[string]interface{}` in sorted key
order, through sequences and string-keyed maps: the order in which the JSON
encoder, and so `values.YAML()`, writes the keys of a Go map, whatever the
order in which `range` would meet them. -/
def sortKeys : Value → Value
  | .strMap es => .strMap (sortSlice entryLess (sortKeysEntries es))
  | .seq xs => .seq (sortKeysList xs)
  | v => v
termination_by structural v => v
/-- The elements of a sequence, each in sorted key order. -/
def sortKeysList : List Value → List Value
  | [] => []
  | v :: rest => sortKeys v :: sortKeysList rest
termination_by structural xs => xs
end

/-- The values with the keys of every string-keyed map, the top level
included, in sorted order. -/
def sortedValues (values : List (String × Value)) : List (String × Value) :=
  sortSlice entryLess (sortKeysEntries values)

/-- The encoder writes the keys of maps in sorted order: the text of
`values.YAML()` is a function of the values with the entries of every
string-keyed map in sorted key order. -/
def writesKeysSorted (c : Codec) : Prop :=
  ∃ render : List (String × Value) → Option (List Nat),
    ∀ values, c.valuesYAML values = render (sortedValues values)

mutual
/-- Two trees are the same Go value met in two orders: they differ at most in
the order of the entries of their `map[string]interface{}` nodes, at every
nesting level through sequences and string-keyed maps. Scalars are equal,
sequences are the same position by position; other nodes are equal. -/
def sameMapValue : Value → Value → Prop
  | .seq xs, w => ∃ ys, w = .seq ys ∧ sameMapElems xs ys
  | .strMap es, w =>
    ∃ es' l, w = .strMap es' ∧ List.Perm l es' ∧ sameEntries es l
  | .scalar s, w => w = .scalar s
  | .mapSlice ms, w => w = .mapSlice ms
  | .ifaceMap ms, w => w = .ifaceMap ms
termination_by structural v => v
/-- The relation `sameMapValue` between two sequences, position by position. -/
def sameMapElems : List Value → List Value → Prop
  | [], ys => ys = []
  | x :: xs, ys => ∃ y ys', ys = y :: ys' ∧ sameMapValue x y ∧ sameMapElems xs ys'
termination_by structural xs => xs
/-- Two entry lists with the same keys in the same positions and values
related by `sameMapValue`. -/
def sameEntries : List (String × Value) → List (String × Value) → Prop
  | [], l => l = []
  | (k, v) :: rest, l =>
    ∃ w l', l = (k, w) :: l' ∧ sameMapValue v w ∧ sameEntries rest l'
termination_by structural es => es
end

/-- Two values maps with the same content in two orders of their keys, at
every nesting level. -/
def sameValues (a b : List (String × Value)) : Prop :=
  ∃ l, List.Perm l b ∧ sameEntries a l

/-- The values `k: <a channel>`: a value without a YAML encoding. -/
def noEncodingValues : List (String × GoValue) :=
  [("k", .noEncoding)]

/-- The values `b: 1`, `a: 2` as values of `copyValues`. -/
def treeValuesBA : List (String × GoValue) :=
  [("b", .tree (.scalar (.int 1))), ("a", .tree (.scalar (.int 2)))]

/-- A codec whose encoder returns the bytes of `textAB` and whose decoder
finds in them the entry `m` with a nested map of two keys. -/
def roundTripCodec : Codec :=
  ⟨fun _ => none, fun _ => some textAB,
   fun _ => [("m", .ifaceMap [(.int 1, .scalar (.str "one")),
                               (.str "s", .seq [.ifaceMap []])])]⟩

/-! ## Lemmas: the order on texts -/

theorem textLess_irrefl : ∀ a : List Char, textLess a a = false
  | [] => rfl
  | c :: cs => by simp [textLess, textLess_irrefl cs]

theorem textLess_asymm :
    ∀ a b : List Char, textLess a b = true → textLess b a = false
  | _, [] => by simp [textLess]
  | [], _ :: _ => by simp [textLess]
  | a :: as, b :: bs => by
    have ih := textLess_asymm as bs
    unfold textLess
    by_cases h1 : a.toNat < b.toNat
    · have h2 : ¬ b.toNat < a.toNat := by omega
      simp [h1, h2]
    · by_cases h2 : b.toNat < a.toNat
      · simp [h1, h2]
      · simpa [h1, h2] using ih

theorem textLess_trans :
    ∀ a b c : List Char, textLess a b = true → textLess b c = true →
      textLess a c = true
  | _, [], _ => by simp [textLess]
  | _, _ :: _, [] => by simp [textLess]
  | [], _ :: _, _ :: _ => by simp [textLess]
  | a :: as, b :: bs, c :: cs => by
    have ih := textLess_trans as bs cs
    unfold textLess
    by_cases h1 : a.toNat < b.toNat
    · by_cases h2 : b.toNat < c.toNat
      · have h3 : a.toNat < c.toNat := by omega
        simp [h3]
      · by_cases h2' : c.toNat < b.toNat
        · simp [h1, h2, h2']
        · have h3 : a.toNat < c.toNat := by omega
          simp [h3]
    · by_cases h1' : b.toNat < a.toNat
      · simp [h1, h1']
      · by_cases h2 : b.toNat < c.toNat
        · have h3 : a.toNat < c.toNat := by omega
          simp [h3]
        · by_cases h2' : c.toNat < b.toNat
          · simp [h1, h1', h2, h2']
          · have h3 : ¬ a.toNat < c.toNat := by omega
            have h4 : ¬ c.toNat < a.toNat := by omega
            simpa [h1, h1', h2, h2', h3, h4] using ih

theorem char_eq_of_toNat_eq (a b : Char) (h : a.toNat = b.toNat) : a = b := by
  apply Char.ext
  apply UInt32.ext
  exact h

theorem textLess_iff_lex :
    ∀ a b : List Char, textLess a b = true ↔ List.Lex (fun x y : Char => x < y) a b
  | a, [] => by simp [textLess, List.Lex.not_nil_right]
  | [], b :: bs => by simp [textLess, List.Lex.nil]
  | a :: as, b :: bs => by
    have ih := textLess_iff_lex as bs
    unfold textLess
    by_cases h1 : a.toNat < b.toNat
    · simp only [h1, if_true, true_iff]
      exact List.Lex.rel h1
    · by_cases h2 : b.toNat < a.toNat
      · simp only [h1, h2, if_true, if_false]
        constructor
        · intro h; exact absurd h (by decide)
        · intro h
          cases h with
          | cons h => omega
          | rel h => exact absurd h h1
      · have hab : a = b := char_eq_of_toNat_eq a b (by omega)
        subst hab
        simp only [h1, if_false]
        rw [ih]
        exact (List.Lex.cons_iff).symm

/-- The comparison `textLess` is the order `<` of strings. -/
theorem textLess_iff_lt (s t : String) :
    textLess s.toList t.toList = true ↔ s < t := by
  rw [String.lt_iff_toList_lt]
  exact textLess_iff_lex _ _

theorem textLess_eq_false_iff_le (s t : String) :
    textLess t.toList s.toList = false ↔ s ≤ t := by
  rw [← not_lt, ← textLess_iff_lt]
  simp

theorem keyLess_asymm (a b : Scalar × Value) (h : keyLess a b = true) :
    keyLess b a = false :=
  textLess_asymm _ _ h

theorem keyLess_trans (a b c : Scalar × Value) (h1 : keyLess a b = true)
    (h2 : keyLess b c = true) : keyLess a c = true :=
  textLess_trans _ _ _ h1 h2

/-! ## Lemmas: insertion sort -/

section Sorting

variable {α : Type} (less : α → α → Bool)

theorem insertLess_perm (x : α) : ∀ l : List α, (insertLess less x l).Perm (x :: l)
  | [] => List.Perm.refl _
  | y :: ys => by
    unfold insertLess
    split
    · exact List.Perm.refl _
    · exact ((insertLess_perm x ys).cons y).trans (List.Perm.swap x y ys)

theorem sortSlice_foldl_perm (l : List α) :
    ∀ acc : List α,
      (l.foldl (fun acc x => insertLess less x acc) acc).Perm (acc ++ l) := by
  induction l with
  | nil => intro acc; simp
  | cons x xs ih =>
    intro acc
    simp only [List.foldl_cons]
    refine (ih _).trans ?_
    have h1 := (insertLess_perm less x acc).append_right xs
    refine h1.trans ?_
    simpa using (@List.perm_middle α x acc xs).symm

theorem sortSlice_perm (l : List α) : (sortSlice less l).Perm l := by
  simpa [sortSlice] using sortSlice_foldl_perm less l []

theorem insertLess_ascending
    (hasymm : ∀ a b, less a b = true → less b a = false)
    (htrans : ∀ a b c, less a b = true → less b c = true → less a c = true)
    (x : α) :
    ∀ l : List α, l.Pairwise (fun a b => less b a = false) →
      (insertLess less x l).Pairwise (fun a b => less b a = false)
  | [], _ => by simp [insertLess]
  | y :: ys, h => by
    unfold insertLess
    rw [List.pairwise_cons] at h
    by_cases hxy : less x y = true
    · simp only [hxy, if_true]
      refine List.Pairwise.cons ?_ (List.Pairwise.cons h.1 h.2)
      intro z hz
      rcases List.mem_cons.mp hz with rfl | hz
      · exact hasymm _ _ hxy
      · have hzy := h.1 z hz
        cases hzx : less z x with
        | false => rfl
        | true =>
          have hlt := htrans z x y hzx hxy
          rw [hzy] at hlt
          exact absurd hlt (by decide)
    · simp only [hxy]
      refine List.Pairwise.cons ?_ (insertLess_ascending hasymm htrans x ys h.2)
      intro z hz
      have hz' := (insertLess_perm less x ys).mem_iff.mp hz
      rcases List.mem_cons.mp hz' with rfl | hz'
      · simpa using hxy
      · exact h.1 z hz'

theorem sortSlice_foldl_ascending
    (hasymm : ∀ a b, less a b = true → less b a = false)
    (htrans : ∀ a b c, less a b = true → less b c = true → less a c = true)
    (l : List α) :
    ∀ acc : List α, acc.Pairwise (fun a b => less b a = false) →
      (l.foldl (fun acc x => insertLess less x acc) acc).Pairwise
        (fun a b => less b a = false) := by
  induction l with
  | nil => intro acc h; simpa using h
  | cons x xs ih =>
    intro acc h
    simp only [List.foldl_cons]
    exact ih _ (insertLess_ascending less hasymm htrans x acc h)

theorem sortSlice_ascending
    (hasymm : ∀ a b, less a b = true → less b a = false)
    (htrans : ∀ a b c, less a b = true → less b c = true → less a c = true)
    (l : List α) :
    (sortSlice less l).Pairwise (fun a b => less b a = false) :=
  sortSlice_foldl_ascending less hasymm htrans l [] List.Pairwise.nil

theorem insertLess_append_of_not_less (x : α) :
    ∀ l : List α, (∀ y ∈ l, less x y = false) → insertLess less x l = l ++ [x]
  | [], _ => rfl
  | y :: ys, h => by
    have hy : less x y = false := h y (List.mem_cons_self _ _)
    have ih := insertLess_append_of_not_less x ys
      (fun z hz => h z (List.mem_cons_of_mem _ hz))
    simp [insertLess, hy, ih]

theorem sortSlice_foldl_of_ascending (l : List α) :
    ∀ acc : List α, (acc ++ l).Pairwise (fun a b => less b a = false) →
      l.foldl (fun acc x => insertLess less x acc) acc = acc ++ l := by
  induction l with
  | nil => intro acc _; simp
  | cons x xs ih =>
    intro acc h
    simp only [List.foldl_cons]
    have hx : ∀ y ∈ acc, less x y = false := by
      intro y hy
      have h' := List.pairwise_append.mp h
      exact h'.2.2 y hy x (List.mem_cons_self _ _)
    rw [insertLess_append_of_not_less less x acc hx]
    have h2 : (acc ++ [x] ++ xs).Pairwise (fun a b => less b a = false) := by
      simpa using h
    rw [ih _ h2]
    simp

theorem sortSlice_of_ascending (l : List α)
    (h : l.Pairwise (fun a b => less b a = false)) : sortSlice less l = l := by
  simpa [sortSlice] using sortSlice_foldl_of_ascending less l [] (by simpa using h)

theorem sortSlice_idem
    (hasymm : ∀ a b, less a b = true → less b a = false)
    (htrans : ∀ a b c, less a b = true → less b c = true → less a c = true)
    (l : List α) : sortSlice less (sortSlice less l) = sortSlice less l :=
  sortSlice_of_ascending less _ (sortSlice_ascending less hasymm htrans l)

theorem insertLess_map (f : α → α) (hf : ∀ a b, less (f a) (f b) = less a b)
    (x : α) :
    ∀ l : List α, insertLess less (f x) (l.map f) = (insertLess less x l).map f
  | [] => rfl
  | y :: ys => by
    have ih := insertLess_map f hf x ys
    simp only [List.map_cons, insertLess, hf]
    split
    · simp
    · simp [ih]

theorem sortSlice_foldl_map (f : α → α)
    (hf : ∀ a b, less (f a) (f b) = less a b) (l : List α) :
    ∀ acc : List α,
      (l.map f).foldl (fun acc x => insertLess less x acc) (acc.map f)
        = (l.foldl (fun acc x => insertLess less x acc) acc).map f := by
  induction l with
  | nil => intro acc; rfl
  | cons x xs ih =>
    intro acc
    simp only [List.map_cons, List.foldl_cons]
    rw [insertLess_map less f hf x acc]
    exact ih _

theorem sortSlice_map (f : α → α) (hf : ∀ a b, less (f a) (f b) = less a b)
    (l : List α) : sortSlice less (l.map f) = (sortSlice less l).map f := by
  simpa [sortSlice] using sortSlice_foldl_map less f hf l []

end Sorting

/-! ## Lemmas: `SortMapSlice` -/

theorem keysAscending_iff (ms : List (Scalar × Value)) :
    keysAscending ms = true ↔ ms.Pairwise (fun a b => keyLess b a = false) := by
  induction ms with
  | nil => simp [keysAscending]
  | cons a rest ih =>
    simp [keysAscending, ih, List.pairwise_cons]

theorem sortItems_eq_map :
    ∀ ms : List (Scalar × Value),
      sortItems ms = ms.map (fun it => (it.1, sortItemValue it.2))
  | [] => by simp [sortItems]
  | (k, v) :: rest => by simp [sortItems, sortItems_eq_map rest]

theorem sortSeqElems_eq_map :
    ∀ xs : List Value, sortSeqElems xs = xs.map sortSeqElem
  | [] => by simp [sortSeqElems]
  | v :: rest => by simp [sortSeqElems, sortSeqElems_eq_map rest]

theorem sortItemValue_mapSlice (ms : List (Scalar × Value)) :
    sortItemValue (.mapSlice ms) = .mapSlice (SortMapSlice ms) := by
  simp [sortItemValue, SortMapSlice]

theorem sortSeqElem_mapSlice (ms : List (Scalar × Value)) :
    sortSeqElem (.mapSlice ms) = .mapSlice (SortMapSlice ms) := by
  simp [sortSeqElem, SortMapSlice]

/-- The source's order of work: `sort.Slice` on the top level first, then the
loop over the items of the sorted slice. -/
theorem SortMapSlice_sort_then_loop (ms : List (Scalar × Value)) :
    SortMapSlice ms = sortItems (sortSlice keyLess ms) := by
  unfold SortMapSlice
  rw [sortItems_eq_map, sortItems_eq_map]
  exact sortSlice_map keyLess (fun it => (it.1, sortItemValue it.2))
    (fun a b => rfl) ms

theorem SortMapSlice_ascending (ms : List (Scalar × Value)) :
    (SortMapSlice ms).Pairwise (fun a b => keyLess b a = false) :=
  sortSlice_ascending keyLess keyLess_asymm keyLess_trans _

theorem reachSortedItems_iff :
    ∀ ms : List (Scalar × Value),
      reachSortedItems ms = true ↔ ∀ it ∈ ms, reachSortedValue it.2 = true
  | [] => by simp [reachSortedItems]
  | (k, v) :: rest => by
    simp [reachSortedItems, reachSortedItems_iff rest]

theorem reachSortedItems_perm {l₁ l₂ : List (Scalar × Value)} (h : l₁.Perm l₂) :
    reachSortedItems l₁ = true → reachSortedItems l₂ = true := by
  rw [reachSortedItems_iff, reachSortedItems_iff]
  intro h1 it hit
  exact h1 it (h.mem_iff.mpr hit)

mutual
theorem reachSortedItems_sortItems :
    ∀ ms : List (Scalar × Value), reachSortedItems (sortItems ms) = true
  | [] => by simp [sortItems, reachSortedItems]
  | (k, v) :: rest => by
    simp [sortItems, reachSortedItems, reachSortedValue_sortItemValue v,
      reachSortedItems_sortItems rest]
theorem reachSortedValue_sortItemValue :
    ∀ v : Value, reachSortedValue (sortItemValue v) = true
  | .scalar _ => by simp [sortItemValue, reachSortedValue]
  | .strMap _ => by simp [sortItemValue, reachSortedValue]
  | .ifaceMap _ => by simp [sortItemValue, reachSortedValue]
  | .seq xs => by
    simp [sortItemValue, reachSortedValue, reachSortedElems_sortSeqElems xs]
  | .mapSlice ms => by
    have h1 := reachSortedItems_sortItems ms
    have h2 := reachSortedItems_perm (sortSlice_perm keyLess (sortItems ms)).symm h1
    have h3 := (keysAscending_iff _).mpr
      (sortSlice_ascending keyLess keyLess_asymm keyLess_trans (sortItems ms))
    simp [sortItemValue, reachSortedValue, h2, h3]
theorem reachSortedElems_sortSeqElems :
    ∀ xs : List Value, reachSortedElems (sortSeqElems xs) = true
  | [] => by simp [sortSeqElems, reachSortedElems]
  | v :: rest => by
    simp [sortSeqElems, reachSortedElems, reachSortedElem_sortSeqElem v,
      reachSortedElems_sortSeqElems rest]
theorem reachSortedElem_sortSeqElem :
    ∀ v : Value, reachSortedElem (sortSeqElem v) = true
  | .scalar _ => by simp [sortSeqElem, reachSortedElem]
  | .strMap _ => by simp [sortSeqElem, reachSortedElem]
  | .ifaceMap _ => by simp [sortSeqElem, reachSortedElem]
  | .seq _ => by simp [sortSeqElem, reachSortedElem]
  | .mapSlice ms => by
    have h1 := reachSortedItems_sortItems ms
    have h2 := reachSortedItems_perm (sortSlice_perm keyLess (sortItems ms)).symm h1
    have h3 := (keysAscending_iff _).mpr
      (sortSlice_ascending keyLess keyLess_asymm keyLess_trans (sortItems ms))
    simp [sortSeqElem, reachSortedElem, h2, h3]
end

theorem reachSorted_SortMapSlice (ms : List (Scalar × Value)) :
    reachSorted (SortMapSlice ms) = true := by
  have h1 := reachSortedItems_sortItems ms
  have h2 := reachSortedItems_perm (sortSlice_perm keyLess (sortItems ms)).symm h1
  have h3 := (keysAscending_iff _).mpr (SortMapSlice_ascending ms)
  simp only [reachSorted, Bool.and_eq_true]
  exact ⟨h3, h2⟩

mutual
theorem sortItems_of_reachSorted :
    ∀ ms : List (Scalar × Value), reachSortedItems ms = true → sortItems ms = ms
  | [], _ => by simp [sortItems]
  | (k, v) :: rest, h => by
    simp only [reachSortedItems, Bool.and_eq_true] at h
    simp [sortItems, sortItemValue_of_reachSorted v h.1,
      sortItems_of_reachSorted rest h.2]
theorem sortItemValue_of_reachSorted :
    ∀ v : Value, reachSortedValue v = true → sortItemValue v = v
  | .scalar _, _ => by simp [sortItemValue]
  | .strMap _, _ => by simp [sortItemValue]
  | .ifaceMap _, _ => by simp [sortItemValue]
  | .seq xs, h => by
    simp only [reachSortedValue] at h
    simp [sortItemValue, sortSeqElems_of_reachSorted xs h]
  | .mapSlice ms, h => by
    simp only [reachSortedValue, Bool.and_eq_true] at h
    simp [sortItemValue, sortItems_of_reachSorted ms h.2,
      sortSlice_of_ascending keyLess ms ((keysAscending_iff ms).mp h.1)]
theorem sortSeqElems_of_reachSorted :
    ∀ xs : List Value, reachSortedElems xs = true → sortSeqElems xs = xs
  | [], _ => by simp [sortSeqElems]
  | v :: rest, h => by
    simp only [reachSortedElems, Bool.and_eq_true] at h
    simp [sortSeqElems, sortSeqElem_of_reachSorted v h.1,
      sortSeqElems_of_reachSorted rest h.2]
theorem sortSeqElem_of_reachSorted :
    ∀ v : Value, reachSortedElem v = true → sortSeqElem v = v
  | .scalar _, _ => by simp [sortSeqElem]
  | .strMap _, _ => by simp [sortSeqElem]
  | .ifaceMap _, _ => by simp [sortSeqElem]
  | .seq _, _ => by simp [sortSeqElem]
  | .mapSlice ms, h => by
    simp only [reachSortedElem, Bool.and_eq_true] at h
    simp [sortSeqElem, sortItems_of_reachSorted ms h.2,
      sortSlice_of_ascending keyLess ms ((keysAscending_iff ms).mp h.1)]
end

theorem SortMapSlice_of_reachSorted (ms : List (Scalar × Value))
    (h : reachSorted ms = true) : SortMapSlice ms = ms := by
  simp only [reachSorted, Bool.and_eq_true] at h
  unfold SortMapSlice
  rw [sortItems_of_reachSorted ms h.2]
  exact sortSlice_of_ascending keyLess ms ((keysAscending_iff ms).mp h.1)

theorem sortSeqElem_of_not_mapSlice (v : Value)
    (h : ∀ m, v ≠ .mapSlice m) : sortSeqElem v = v := by
  cases v with
  | mapSlice m => exact absurd rfl (h m)
  | scalar _ => simp [sortSeqElem]
  | seq _ => simp [sortSeqElem]
  | strMap _ => simp [sortSeqElem]
  | ifaceMap _ => simp [sortSeqElem]

theorem mem_SortMapSlice (ms : List (Scalar × Value)) (k : Scalar) (v : Value)
    (h : (k, v) ∈ ms) : (k, sortItemValue v) ∈ SortMapSlice ms := by
  unfold SortMapSlice
  rw [(sortSlice_perm keyLess (sortItems ms)).mem_iff, sortItems_eq_map]
  exact List.mem_map.mpr ⟨(k, v), h, rfl⟩


/-! ## Lemmas: digests and their hexadecimal text -/

set_option maxRecDepth 100000 in
theorem sprintfHex_sha1Sum_nil :
    sprintfHex (sha1Sum []) = "da39a3ee5e6b4b0d3255bfef95601890afd80709" := by
  decide

set_option maxRecDepth 100000 in
/-- The standard test vector: the digest of the three bytes of `abc`. -/
theorem sprintfHex_sha1Sum_abc :
    sprintfHex (sha1Sum [97, 98, 99])
      = "a9993e364706816aba3e25717850c26c9cd0d89d" := by
  decide

theorem sha1Sum_length (msg : List Nat) : (sha1Sum msg).length = 20 := by
  simp [sha1Sum, wordBytes]

theorem sha1Sum_byte (msg : List Nat) : ∀ b ∈ sha1Sum msg, b < 256 := by
  intro b hb
  simp only [sha1Sum, wordBytes, List.mem_append, List.mem_cons,
    List.mem_singleton, List.not_mem_nil, or_false] at hb
  rcases hb with (((h | h) | h) | h) | h <;>
    rcases h with h | h | h | h <;> subst h <;> exact Nat.mod_lt _ (by decide)

theorem hexDigit_isLowerHex (d : Nat) (h : d < 16) :
    isLowerHex (hexDigit d) = true := by
  interval_cases d <;> decide

theorem sprintfHex_length (bytes : List Nat) :
    (sprintfHex bytes).length = 2 * bytes.length := by
  unfold sprintfHex
  rw [String.length]
  induction bytes with
  | nil => rfl
  | cons b bs ih =>
    simp only [List.flatMap_cons, List.length_append, List.length_cons,
      List.length_nil, ih]
    omega

theorem sprintfHex_isLowerHex (bytes : List Nat) :
    ∀ ch ∈ (sprintfHex bytes).toList, isLowerHex ch = true := by
  intro ch hch
  simp only [sprintfHex, String.toList, List.mem_flatMap, List.mem_cons,
    List.mem_singleton, List.not_mem_nil, or_false] at hch
  obtain ⟨b, _, h | h⟩ := hch
  · subst h
    exact hexDigit_isLowerHex _ (Nat.mod_lt _ (by decide))
  · subst h
    exact hexDigit_isLowerHex _ (Nat.mod_lt _ (by decide))

/-! ## Lemmas: `cleanUpMapValue` -/

/-- The case `map[interface{}]interface{}` of the type switch is the call
`cleanUpInterfaceMap(v)`. -/
theorem cleanUpMapValue_ifaceMap (m : List (Scalar × Value)) :
    cleanUpMapValue (.ifaceMap m) = .strMap (cleanUpInterfaceMap m) := by
  simp [cleanUpMapValue, cleanUpInterfaceMap]

theorem hasIfaceMapEntries_mapSet (m : List (String × Value)) (k : String)
    (v : Value) (hm : hasIfaceMapEntries m = false) (hv : hasIfaceMap v = false) :
    hasIfaceMapEntries (mapSet m k v) = false := by
  induction m with
  | nil => simp [mapSet, hasIfaceMapEntries, hv]
  | cons e rest ih =>
    obtain ⟨k', v'⟩ := e
    simp only [hasIfaceMapEntries, Bool.or_eq_false_iff] at hm
    unfold mapSet
    split
    · simp [hasIfaceMapEntries, hv, hm.2]
    · simp [hasIfaceMapEntries, hm.1, ih hm.2]

mutual
theorem hasIfaceMap_cleanUpMapValue :
    ∀ v : Value, noIfaceBelowOther v = true →
      hasIfaceMap (cleanUpMapValue v) = false
  | .scalar _, _ => by simp [cleanUpMapValue, hasIfaceMap]
  | .seq xs, h => by
    simp only [noIfaceBelowOther] at h
    simp [cleanUpMapValue, hasIfaceMap, hasIfaceMapList_cleanUpInterfaceArray xs h]
  | .mapSlice ms, h => by
    simp only [noIfaceBelowOther, Bool.not_eq_true'] at h
    simp [cleanUpMapValue, hasIfaceMap, h]
  | .strMap es, h => by
    simp only [noIfaceBelowOther, Bool.not_eq_true'] at h
    simp [cleanUpMapValue, hasIfaceMap, h]
  | .ifaceMap es, h => by
    simp only [noIfaceBelowOther] at h
    simp [cleanUpMapValue, hasIfaceMap,
      hasIfaceMapEntries_cleanUpInterfaceMapLoop es [] h rfl]
theorem hasIfaceMapList_cleanUpInterfaceArray :
    ∀ xs : List Value, noIfaceBelowOtherList xs = true →
      hasIfaceMapList (cleanUpInterfaceArray xs) = false
  | [], _ => by simp [cleanUpInterfaceArray, hasIfaceMapList]
  | v :: rest, h => by
    simp only [noIfaceBelowOtherList, Bool.and_eq_true] at h
    simp [cleanUpInterfaceArray, hasIfaceMapList,
      hasIfaceMap_cleanUpMapValue v h.1,
      hasIfaceMapList_cleanUpInterfaceArray rest h.2]
theorem hasIfaceMapEntries_cleanUpInterfaceMapLoop :
    ∀ (m : List (Scalar × Value)) (result : List (String × Value)),
      noIfaceBelowOtherItems m = true → hasIfaceMapEntries result = false →
      hasIfaceMapEntries (cleanUpInterfaceMapLoop m result) = false
  | [], result, _, hr => by simpa [cleanUpInterfaceMapLoop] using hr
  | (k, v) :: rest, result, h, hr => by
    simp only [noIfaceBelowOtherItems, Bool.and_eq_true] at h
    simp only [cleanUpInterfaceMapLoop]
    exact hasIfaceMapEntries_cleanUpInterfaceMapLoop rest _ h.2
      (hasIfaceMapEntries_mapSet result _ _ hr
        (hasIfaceMap_cleanUpMapValue v h.1))
end

theorem mapSet_of_fresh (m : List (String × Value)) (k : String) (v : Value)
    (h : ∀ e ∈ m, e.1 ≠ k) : mapSet m k v = m ++ [(k, v)] := by
  induction m with
  | nil => rfl
  | cons e rest ih =>
    obtain ⟨k', v'⟩ := e
    have hk : k' ≠ k := h (k', v') (List.mem_cons_self _ _)
    have ih' := ih (fun e he => h e (List.mem_cons_of_mem _ he))
    simp [mapSet, hk, ih']

theorem keyViewEntries_append :
    ∀ a b : List (String × Value),
      keyViewEntries (a ++ b) = keyViewEntries a ++ keyViewEntries b
  | [], b => by simp [keyViewEntries]
  | (k, v) :: rest, b => by
    simp [keyViewEntries, keyViewEntries_append rest b]

theorem sprint_ne_of_isStr (a b : Scalar) (ha : a.isStr = true)
    (hb : b.isStr = true) (h : a ≠ b) : sprint a ≠ sprint b := by
  cases a <;> cases b <;> simp_all [Scalar.isStr, sprint]

mutual
theorem keyView_cleanUpMapValue :
    ∀ v : Value, validMaps v = true → stringKeyed v = true →
      keyView (cleanUpMapValue v) = keyView v
  | .scalar _, _, _ => by simp [cleanUpMapValue]
  | .mapSlice _, _, _ => by simp [cleanUpMapValue]
  | .strMap _, _, _ => by simp [cleanUpMapValue]
  | .seq xs, hv, hs => by
    simp only [validMaps] at hv
    simp only [stringKeyed] at hs
    simp [cleanUpMapValue, keyView, keyViewList_cleanUpInterfaceArray xs hv hs]
  | .ifaceMap es, hv, hs => by
    simp only [validMaps, Bool.and_eq_true] at hv
    simp only [stringKeyed, Bool.and_eq_true] at hs
    have h := keyViewEntries_cleanUpInterfaceMapLoop es [] hv.2 hv.1 hs.2 hs.1
      (by simp)
    simp [cleanUpMapValue, keyView, h, keyViewEntries]
theorem keyViewList_cleanUpInterfaceArray :
    ∀ xs : List Value, validMapsList xs = true → stringKeyedList xs = true →
      keyViewList (cleanUpInterfaceArray xs) = keyViewList xs
  | [], _, _ => by simp [cleanUpInterfaceArray]
  | v :: rest, hv, hs => by
    simp only [validMapsList, Bool.and_eq_true] at hv
    simp only [stringKeyedList, Bool.and_eq_true] at hs
    simp [cleanUpInterfaceArray, keyViewList,
      keyView_cleanUpMapValue v hv.1 hs.1,
      keyViewList_cleanUpInterfaceArray rest hv.2 hs.2]
theorem keyViewEntries_cleanUpInterfaceMapLoop :
    ∀ (m : List (Scalar × Value)) (result : List (String × Value)),
      validMapsItems m = true → distinctKeys m = true →
      stringKeyedItems m = true → m.all (fun e => e.1.isStr) = true →
      (∀ e ∈ result, ∀ it ∈ m, e.1 ≠ sprint it.1) →
      keyViewEntries (cleanUpInterfaceMapLoop m result)
        = keyViewEntries result ++ keyViewItems m
  | [], result, _, _, _, _, _ => by
    simp [cleanUpInterfaceMapLoop, keyViewItems]
  | (k, v) :: rest, result, hv, hd, hs, hk, hfresh => by
    simp only [validMapsItems, Bool.and_eq_true] at hv
    simp only [stringKeyedItems, Bool.and_eq_true] at hs
    simp only [distinctKeys, Bool.and_eq_true, List.all_eq_true,
      decide_eq_true_eq] at hd
    simp only [List.all_cons, Bool.and_eq_true, List.all_eq_true] at hk
    have hfr : ∀ e ∈ result, e.1 ≠ sprint k := fun e he =>
      hfresh e he (k, v) (List.mem_cons_self _ _)
    have hfresh' : ∀ e ∈ result ++ [(sprint k, cleanUpMapValue v)],
        ∀ it ∈ rest, e.1 ≠ sprint it.1 := by
      intro e he it hit
      rcases List.mem_append.mp he with he | he
      · exact hfresh e he it (List.mem_cons_of_mem _ hit)
      · rw [List.mem_singleton] at he
        subst he
        exact sprint_ne_of_isStr _ _ hk.1 (hk.2 it hit)
          (fun h => hd.1 it hit h.symm)
    have hdrest : distinctKeys rest = true := hd.2
    have hkrest : rest.all (fun e => e.1.isStr) = true := by
      simpa [List.all_eq_true] using hk.2
    have ih := keyViewEntries_cleanUpInterfaceMapLoop rest _ hv.2 hdrest hs.2
      hkrest hfresh'
    have hkey : Scalar.str (sprint k) = k := by
      cases k <;> simp_all [Scalar.isStr, sprint]
    simp only [cleanUpInterfaceMapLoop]
    rw [mapSet_of_fresh result _ _ hfr, ih, keyViewEntries_append]
    simp [keyViewEntries, keyViewItems, keyView_cleanUpMapValue v hv.1 hs.1, hkey]
end

/-! ## Lemmas: the sorted order is unique when key texts differ -/

theorem textLess_total :
    ∀ a b : List Char, textLess a b = false → textLess b a = false → a = b
  | [], [] => by simp
  | [], _ :: _ => by simp [textLess]
  | _ :: _, [] => by simp [textLess]
  | a :: as, b :: bs => by
    have ih := textLess_total as bs
    unfold textLess
    by_cases h1 : a.toNat < b.toNat
    · simp [h1]
    · by_cases h2 : b.toNat < a.toNat
      · simp [h1, h2]
      · have hab : a = b := char_eq_of_toNat_eq a b (by omega)
        subst hab
        simp only [h1, if_false]
        intro h3 h4
        rw [ih h3 h4]

theorem keyLess_total_text (a b : Scalar × Value) (h1 : keyLess a b = false)
    (h2 : keyLess b a = false) : sprint a.1 = sprint b.1 := by
  have h := textLess_total _ _ h1 h2
  exact String.ext h

theorem eq_of_perm_of_ascending {α : Type} (less : α → α → Bool) :
    ∀ l₁ l₂ : List α, l₁.Perm l₂ →
      l₁.Pairwise (fun a b => less b a = false) →
      l₂.Pairwise (fun a b => less b a = false) →
      (∀ a ∈ l₁, ∀ b ∈ l₁, less a b = false → less b a = false → a = b) →
      l₁ = l₂
  | [], l₂, hp, _, _, _ => by simpa using hp.symm.eq_nil
  | a :: t₁, [], hp, _, _, _ => by simpa using hp.eq_nil
  | a :: t₁, b :: t₂, hp, h1, h2, hanti => by
    rw [List.pairwise_cons] at h1 h2
    have ha2 : a ∈ b :: t₂ := hp.mem_iff.mp (List.mem_cons_self _ _)
    have hb1 : b ∈ a :: t₁ := hp.mem_iff.mpr (List.mem_cons_self _ _)
    have hab : a = b := by
      rcases List.mem_cons.mp ha2 with h | h
      · exact h
      · rcases List.mem_cons.mp hb1 with h' | h'
        · exact h'.symm
        · exact hanti a (List.mem_cons_self _ _) b hb1 (h2.1 a h) (h1.1 b h')
    subst hab
    have hp' : t₁.Perm t₂ := List.Perm.cons_inv hp
    have ih := eq_of_perm_of_ascending less t₁ t₂ hp' h1.2 h2.2
      (fun x hx y hy => hanti x (List.mem_cons_of_mem _ hx) y
        (List.mem_cons_of_mem _ hy))
    rw [ih]

theorem sortSlice_eq_of_perm {α : Type} (less : α → α → Bool)
    (hasymm : ∀ a b, less a b = true → less b a = false)
    (htrans : ∀ a b c, less a b = true → less b c = true → less a c = true)
    (l₁ l₂ : List α) (hp : l₁.Perm l₂)
    (hanti : ∀ a ∈ l₁, ∀ b ∈ l₁, less a b = false → less b a = false → a = b) :
    sortSlice less l₁ = sortSlice less l₂ := by
  apply eq_of_perm_of_ascending less
  · exact ((sortSlice_perm less l₁).trans hp).trans (sortSlice_perm less l₂).symm
  · exact sortSlice_ascending less hasymm htrans l₁
  · exact sortSlice_ascending less hasymm htrans l₂
  · intro a ha b hb
    exact hanti a ((sortSlice_perm less l₁).mem_iff.mp ha) b
      ((sortSlice_perm less l₁).mem_iff.mp hb)

theorem keyTextsDistinct_iff (l : List (Scalar × Value)) :
    keyTextsDistinct l = true ↔ (l.map (fun it => sprint it.1)).Nodup := by
  induction l with
  | nil => simp [keyTextsDistinct]
  | cons a rest ih =>
    simp only [keyTextsDistinct, Bool.and_eq_true, List.all_eq_true,
      decide_eq_true_eq, ih, List.map_cons, List.nodup_cons, List.mem_map,
      not_exists, not_and]

theorem keyTextsDistinct_inj (l : List (Scalar × Value))
    (h : keyTextsDistinct l = true) :
    ∀ a ∈ l, ∀ b ∈ l, sprint a.1 = sprint b.1 → a = b := by
  induction l with
  | nil => intro a ha; cases ha
  | cons x rest ih =>
    simp only [keyTextsDistinct, Bool.and_eq_true, List.all_eq_true,
      decide_eq_true_eq] at h
    intro a ha b hb hab
    rcases List.mem_cons.mp ha with ha | ha
    · rcases List.mem_cons.mp hb with hb | hb
      · rw [ha, hb]
      · rw [ha] at hab
        exact absurd hab.symm (h.1 b hb)
    · rcases List.mem_cons.mp hb with hb | hb
      · rw [hb] at hab
        exact absurd hab (h.1 a ha)
      · exact ih h.2 a ha b hb hab

theorem keyTextsDistinct_of_keys_eq (l₁ l₂ : List (Scalar × Value))
    (hk : l₁.map Prod.fst = l₂.map Prod.fst) (h : keyTextsDistinct l₁ = true) :
    keyTextsDistinct l₂ = true := by
  rw [keyTextsDistinct_iff] at h ⊢
  have e : ∀ l : List (Scalar × Value),
      l.map (fun it => sprint it.1) = (l.map Prod.fst).map sprint := by
    intro l; simp
  rw [e] at h ⊢
  rw [← hk]
  exact h

theorem keyTextsDistinct_perm {l₁ l₂ : List (Scalar × Value)} (hp : l₁.Perm l₂)
    (h : keyTextsDistinct l₁ = true) : keyTextsDistinct l₂ = true := by
  rw [keyTextsDistinct_iff] at h ⊢
  exact ((hp.map _).nodup_iff).mp h

theorem sortItems_keys (ms : List (Scalar × Value)) :
    (sortItems ms).map Prod.fst = ms.map Prod.fst := by
  rw [sortItems_eq_map]
  simp [List.map_map, Function.comp_def]

/-- Two reorderings of pairs whose key texts are pairwise different sort to
the same slice. -/
theorem sortSlice_keyLess_eq_of_perm (l₁ l₂ : List (Scalar × Value))
    (hp : l₁.Perm l₂) (hd : keyTextsDistinct l₁ = true) :
    sortSlice keyLess l₁ = sortSlice keyLess l₂ :=
  sortSlice_eq_of_perm keyLess keyLess_asymm keyLess_trans l₁ l₂ hp
    (fun a ha b hb h1 h2 =>
      keyTextsDistinct_inj l₁ hd a ha b hb (keyLess_total_text a b h1 h2))

/-! ## Lemmas: sameness up to order -/

mutual
theorem sameValue_refl : ∀ v : Value, sameValue v v
  | .scalar _ => by simp [sameValue]
  | .strMap _ => by simp [sameValue]
  | .ifaceMap _ => by simp [sameValue]
  | .seq xs => by
    simp only [sameValue]
    exact ⟨xs, rfl, sameElems_refl xs⟩
  | .mapSlice ms => by
    simp only [sameValue]
    exact ⟨ms, ms, rfl, List.Perm.refl _, samePairs_refl ms⟩
theorem sameElems_refl : ∀ xs : List Value, sameElems xs xs
  | [] => by simp [sameElems]
  | v :: rest => by
    simp only [sameElems]
    exact ⟨v, rest, rfl, sameValue_refl v, sameElems_refl rest⟩
theorem samePairs_refl : ∀ ms : List (Scalar × Value), samePairs ms ms
  | [] => by simp [samePairs]
  | (k, v) :: rest => by
    simp only [samePairs]
    exact ⟨v, rest, rfl, sameValue_refl v, samePairs_refl rest⟩
end

theorem samePairs_keys :
    ∀ ms l : List (Scalar × Value), samePairs ms l →
      l.map Prod.fst = ms.map Prod.fst
  | [], l, h => by
    simp only [samePairs] at h
    simp [h]
  | (k, v) :: rest, l, h => by
    simp only [samePairs] at h
    obtain ⟨w, l', hl, _, hrest⟩ := h
    subst hl
    simp [samePairs_keys rest l' hrest]

theorem sameElems_length :
    ∀ xs ys : List Value, sameElems xs ys → ys.length = xs.length
  | [], ys, h => by
    simp only [sameElems] at h
    simp [h]
  | x :: rest, ys, h => by
    simp only [sameElems] at h
    obtain ⟨y, ys', hys, _, hrest⟩ := h
    subst hys
    simp [sameElems_length rest ys' hrest]

mutual
theorem samePairs_sortItems :
    ∀ ms : List (Scalar × Value), samePairs ms (sortItems ms)
  | [] => by simp [samePairs, sortItems]
  | (k, v) :: rest => by
    simp only [samePairs, sortItems]
    exact ⟨_, _, rfl, sameValue_sortItemValue v, samePairs_sortItems rest⟩
theorem sameValue_sortItemValue : ∀ v : Value, sameValue v (sortItemValue v)
  | .scalar _ => by simp [sameValue, sortItemValue]
  | .strMap _ => by simp [sameValue, sortItemValue]
  | .ifaceMap _ => by simp [sameValue, sortItemValue]
  | .seq xs => by
    simp only [sameValue, sortItemValue]
    exact ⟨_, rfl, sameElems_sortSeqElems xs⟩
  | .mapSlice ms => by
    simp only [sameValue, sortItemValue]
    exact ⟨_, sortItems ms, rfl, (sortSlice_perm keyLess _).symm,
      samePairs_sortItems ms⟩
theorem sameElems_sortSeqElems :
    ∀ xs : List Value, sameElems xs (sortSeqElems xs)
  | [] => by simp [sameElems, sortSeqElems]
  | v :: rest => by
    simp only [sameElems, sortSeqElems]
    exact ⟨_, _, rfl, sameValue_sortSeqElem v, sameElems_sortSeqElems rest⟩
theorem sameValue_sortSeqElem : ∀ v : Value, sameValue v (sortSeqElem v)
  | .scalar _ => by simp [sameValue, sortSeqElem]
  | .strMap _ => by simp [sameValue, sortSeqElem]
  | .ifaceMap _ => by simp [sameValue, sortSeqElem]
  | .seq xs => by
    simp only [sortSeqElem]
    exact sameValue_refl _
  | .mapSlice ms => by
    simp only [sameValue, sortSeqElem]
    exact ⟨_, sortItems ms, rfl, (sortSlice_perm keyLess _).symm,
      samePairs_sortItems ms⟩
end

theorem sameMapping_SortMapSlice (ms : List (Scalar × Value)) :
    sameMapping ms (SortMapSlice ms) :=
  ⟨sortItems ms, (sortSlice_perm keyLess _).symm, samePairs_sortItems ms⟩

/-- The step shared by every ordered mapping: once the items are known to
come out the same from the loop, two reorderings sort to the same slice. -/
theorem sortSlice_sortItems_eq (ms ms' l : List (Scalar × Value))
    (hp : l.Perm ms') (hs : samePairs ms l) (hd : keyTextsDistinct ms = true)
    (ih : sortItems ms = sortItems l) :
    sortSlice keyLess (sortItems ms) = sortSlice keyLess (sortItems ms') := by
  rw [ih]
  apply sortSlice_keyLess_eq_of_perm
  · rw [sortItems_eq_map, sortItems_eq_map]
    exact hp.map _
  · apply keyTextsDistinct_of_keys_eq ms (sortItems l) _ hd
    rw [sortItems_keys, samePairs_keys ms l hs]

mutual
theorem sortItems_eq_of_samePairs :
    ∀ ms l : List (Scalar × Value), samePairs ms l →
      distinctKeyTextsItems ms = true → noSeqInSeqItems ms = true →
      sortItems ms = sortItems l
  | [], l, h, _, _ => by
    simp only [samePairs] at h
    rw [h]
  | (k, v) :: rest, l, h, hd, hn => by
    simp only [samePairs] at h
    obtain ⟨w, l', hl, hv, hrest⟩ := h
    subst hl
    simp only [distinctKeyTextsItems, Bool.and_eq_true] at hd
    simp only [noSeqInSeqItems, Bool.and_eq_true] at hn
    simp only [sortItems]
    rw [sortItemValue_eq_of_sameValue v w hv hd.1 hn.1,
      sortItems_eq_of_samePairs rest l' hrest hd.2 hn.2]
theorem sortItemValue_eq_of_sameValue :
    ∀ v w : Value, sameValue v w → distinctKeyTexts v = true →
      noSeqInSeq v = true → sortItemValue v = sortItemValue w
  | .scalar _, w, h, _, _ => by
    simp only [sameValue] at h
    rw [h]
  | .strMap _, w, h, _, _ => by
    simp only [sameValue] at h
    rw [h]
  | .ifaceMap _, w, h, _, _ => by
    simp only [sameValue] at h
    rw [h]
  | .seq xs, w, h, hd, hn => by
    simp only [sameValue] at h
    obtain ⟨ys, hw, hxs⟩ := h
    subst hw
    simp only [distinctKeyTexts] at hd
    simp only [noSeqInSeq] at hn
    simp only [sortItemValue]
    rw [sortSeqElems_eq_of_sameElems xs ys hxs hd hn]
  | .mapSlice ms, w, h, hd, hn => by
    simp only [sameValue] at h
    obtain ⟨ms', l, hw, hp, hs⟩ := h
    subst hw
    simp only [distinctKeyTexts, Bool.and_eq_true] at hd
    simp only [noSeqInSeq] at hn
    simp only [sortItemValue]
    rw [sortSlice_sortItems_eq ms ms' l hp hs hd.1
      (sortItems_eq_of_samePairs ms l hs hd.2 hn)]
theorem sortSeqElems_eq_of_sameElems :
    ∀ xs ys : List Value, sameElems xs ys →
      distinctKeyTextsList xs = true → noSeqInSeqElems xs = true →
      sortSeqElems xs = sortSeqElems ys
  | [], ys, h, _, _ => by
    simp only [sameElems] at h
    rw [h]
  | v :: rest, ys, h, hd, hn => by
    simp only [sameElems] at h
    obtain ⟨y, ys', hys, hv, hrest⟩ := h
    subst hys
    simp only [distinctKeyTextsList, Bool.and_eq_true] at hd
    simp only [noSeqInSeqElems, Bool.and_eq_true, Bool.not_eq_true'] at hn
    simp only [sortSeqElems]
    rw [sortSeqElem_eq_of_sameValue v y hv hn.1.1 hd.1 hn.1.2,
      sortSeqElems_eq_of_sameElems rest ys' hrest hd.2 hn.2]
theorem sortSeqElem_eq_of_sameValue :
    ∀ v w : Value, sameValue v w → v.isSeq = false →
      distinctKeyTexts v = true → noSeqInSeq v = true →
      sortSeqElem v = sortSeqElem w
  | .scalar _, w, h, _, _, _ => by
    simp only [sameValue] at h
    rw [h]
  | .strMap _, w, h, _, _, _ => by
    simp only [sameValue] at h
    rw [h]
  | .ifaceMap _, w, h, _, _, _ => by
    simp only [sameValue] at h
    rw [h]
  | .seq _, _, _, hseq, _, _ => by
    simp [Value.isSeq] at hseq
  | .mapSlice ms, w, h, _, hd, hn => by
    simp only [sameValue] at h
    obtain ⟨ms', l, hw, hp, hs⟩ := h
    subst hw
    simp only [distinctKeyTexts, Bool.and_eq_true] at hd
    simp only [noSeqInSeq] at hn
    simp only [sortSeqElem]
    rw [sortSlice_sortItems_eq ms ms' l hp hs hd.1
      (sortItems_eq_of_samePairs ms l hs hd.2 hn)]
end

theorem SortMapSlice_eq_of_sameMapping (a b : List (Scalar × Value))
    (h : sameMapping a b) (hd : distinctKeyTexts (.mapSlice a) = true)
    (hn : noSeqInSeq (.mapSlice a) = true) :
    SortMapSlice a = SortMapSlice b := by
  obtain ⟨l, hp, hs⟩ := h
  simp only [distinctKeyTexts, Bool.and_eq_true] at hd
  simp only [noSeqInSeq] at hn
  exact sortSlice_sortItems_eq a b l hp hs hd.1
    (sortItems_eq_of_samePairs a l hs hd.2 hn)

/-! ## Lemmas: `cleanUpInterfaceMap` on keys with different texts -/

theorem cleanUpInterfaceMapLoop_of_distinct :
    ∀ (m : List (Scalar × Value)) (result : List (String × Value)),
      keyTextsDistinct m = true →
      (∀ e ∈ result, ∀ it ∈ m, e.1 ≠ sprint it.1) →
      cleanUpInterfaceMapLoop m result
        = result ++ m.map (fun it => (sprint it.1, cleanUpMapValue it.2))
  | [], result, _, _ => by simp [cleanUpInterfaceMapLoop]
  | (k, v) :: rest, result, hd, hfresh => by
    simp only [keyTextsDistinct, Bool.and_eq_true, List.all_eq_true,
      decide_eq_true_eq] at hd
    have hfr : ∀ e ∈ result, e.1 ≠ sprint k := fun e he =>
      hfresh e he (k, v) (List.mem_cons_self _ _)
    have hfresh' : ∀ e ∈ result ++ [(sprint k, cleanUpMapValue v)],
        ∀ it ∈ rest, e.1 ≠ sprint it.1 := by
      intro e he it hit
      rcases List.mem_append.mp he with he | he
      · exact hfresh e he it (List.mem_cons_of_mem _ hit)
      · rw [List.mem_singleton] at he
        subst he
        exact fun h => hd.1 it hit h.symm
    simp only [cleanUpInterfaceMapLoop]
    rw [mapSet_of_fresh result _ _ hfr,
      cleanUpInterfaceMapLoop_of_distinct rest _ hd.2 hfresh']
    simp

theorem cleanUpInterfaceMap_of_distinct (m : List (Scalar × Value))
    (hd : keyTextsDistinct m = true) :
    cleanUpInterfaceMap m
      = m.map (fun it => (sprint it.1, cleanUpMapValue it.2)) := by
  unfold cleanUpInterfaceMap
  rw [cleanUpInterfaceMapLoop_of_distinct m [] hd (by simp)]
  simp

theorem mapGet_map_of_distinct :
    ∀ (m : List (Scalar × Value)), keyTextsDistinct m = true →
      ∀ k v, (k, v) ∈ m →
        mapGet (m.map (fun it => (sprint it.1, cleanUpMapValue it.2))) (sprint k)
          = some (cleanUpMapValue v)
  | [], _, k, v, h => by cases h
  | (k', v') :: rest, hd, k, v, h => by
    simp only [keyTextsDistinct, Bool.and_eq_true, List.all_eq_true,
      decide_eq_true_eq] at hd
    rcases List.mem_cons.mp h with h | h
    · injection h with hk hv
      subst hk hv
      simp [mapGet]
    · have hne : sprint k' ≠ sprint k := fun e => hd.1 (k, v) h e.symm
      simp only [List.map_cons, mapGet, hne, if_false]
      exact mapGet_map_of_distinct rest hd.2 k v h

/-! ## Lemmas: `cleanUpMapValue` on decoder output -/

mutual
theorem noIfaceBelowOther_of_decoderTree :
    ∀ v : Value, decoderTree v = true → noIfaceBelowOther v = true
  | .scalar _, _ => by simp [noIfaceBelowOther]
  | .mapSlice _, h => by simp [decoderTree] at h
  | .strMap _, h => by simp [decoderTree] at h
  | .seq xs, h => by
    simp only [decoderTree] at h
    simp [noIfaceBelowOther, noIfaceBelowOtherList_of_decoderTree xs h]
  | .ifaceMap es, h => by
    simp only [decoderTree] at h
    simp [noIfaceBelowOther, noIfaceBelowOtherItems_of_decoderTree es h]
theorem noIfaceBelowOtherList_of_decoderTree :
    ∀ xs : List Value, decoderTreeList xs = true →
      noIfaceBelowOtherList xs = true
  | [], _ => by simp [noIfaceBelowOtherList]
  | v :: rest, h => by
    simp only [decoderTreeList, Bool.and_eq_true] at h
    simp [noIfaceBelowOtherList, noIfaceBelowOther_of_decoderTree v h.1,
      noIfaceBelowOtherList_of_decoderTree rest h.2]
theorem noIfaceBelowOtherItems_of_decoderTree :
    ∀ es : List (Scalar × Value), decoderTreeItems es = true →
      noIfaceBelowOtherItems es = true
  | [], _ => by simp [noIfaceBelowOtherItems]
  | (_, v) :: rest, h => by
    simp only [decoderTreeItems, Bool.and_eq_true] at h
    simp [noIfaceBelowOtherItems, noIfaceBelowOther_of_decoderTree v h.1,
      noIfaceBelowOtherItems_of_decoderTree rest h.2]
end

theorem onlyStrMapsEntries_mapSet (m : List (String × Value)) (k : String)
    (v : Value) (hm : onlyStrMapsEntries m = true) (hv : onlyStrMaps v = true) :
    onlyStrMapsEntries (mapSet m k v) = true := by
  induction m with
  | nil => simp [mapSet, onlyStrMapsEntries, hv]
  | cons e rest ih =>
    obtain ⟨k', v'⟩ := e
    simp only [onlyStrMapsEntries, Bool.and_eq_true] at hm
    unfold mapSet
    split
    · simp [onlyStrMapsEntries, hv, hm.2]
    · simp [onlyStrMapsEntries, hm.1, ih hm.2]

mutual
theorem onlyStrMaps_cleanUpMapValue :
    ∀ v : Value, decoderTree v = true → onlyStrMaps (cleanUpMapValue v) = true
  | .scalar _, _ => by simp [cleanUpMapValue, onlyStrMaps]
  | .mapSlice _, h => by simp [decoderTree] at h
  | .strMap _, h => by simp [decoderTree] at h
  | .seq xs, h => by
    simp only [decoderTree] at h
    simp [cleanUpMapValue, onlyStrMaps, onlyStrMapsList_cleanUpInterfaceArray xs h]
  | .ifaceMap es, h => by
    simp only [decoderTree] at h
    simp [cleanUpMapValue, onlyStrMaps,
      onlyStrMapsEntries_cleanUpInterfaceMapLoop es [] h rfl]
theorem onlyStrMapsList_cleanUpInterfaceArray :
    ∀ xs : List Value, decoderTreeList xs = true →
      onlyStrMapsList (cleanUpInterfaceArray xs) = true
  | [], _ => by simp [cleanUpInterfaceArray, onlyStrMapsList]
  | v :: rest, h => by
    simp only [decoderTreeList, Bool.and_eq_true] at h
    simp [cleanUpInterfaceArray, onlyStrMapsList,
      onlyStrMaps_cleanUpMapValue v h.1,
      onlyStrMapsList_cleanUpInterfaceArray rest h.2]
theorem onlyStrMapsEntries_cleanUpInterfaceMapLoop :
    ∀ (m : List (Scalar × Value)) (result : List (String × Value)),
      decoderTreeItems m = true → onlyStrMapsEntries result = true →
      onlyStrMapsEntries (cleanUpInterfaceMapLoop m result) = true
  | [], result, _, hr => by simpa [cleanUpInterfaceMapLoop] using hr
  | (k, v) :: rest, result, h, hr => by
    simp only [decoderTreeItems, Bool.and_eq_true] at h
    simp only [cleanUpInterfaceMapLoop]
    exact onlyStrMapsEntries_cleanUpInterfaceMapLoop rest _ h.2
      (onlyStrMapsEntries_mapSet result _ _ hr
        (onlyStrMaps_cleanUpMapValue v h.1))
end

/-- A direct call on a `map[string]interface{}`, which the callers of
`cleanUpMapValue` never make: the type switch has no case for it and returns
it as it is, with the `map[interface{}]interface{}` beneath it. -/
theorem cleanUpMapValue_strMap_unchanged :
    cleanUpMapValue ifaceBelowStrMap = ifaceBelowStrMap
      ∧ hasIfaceMap (cleanUpMapValue ifaceBelowStrMap) = true := by
  decide

/-- More generally than on decoder output: when no
`map[interface{}]interface{}` lies beneath a `map[string]interface{}` or a
`MapSlice`, none is left in the result. -/
theorem cleanUpMapValue_no_ifaceMap (v : Value)
    (h : noIfaceBelowOther v = true) :
    hasIfaceMap (cleanUpMapValue v) = false :=
  hasIfaceMap_cleanUpMapValue v h

/-! ## Lemmas: an encoder that writes keys sorted -/

mutual
theorem sameMapValue_refl : ∀ v : Value, sameMapValue v v
  | .scalar _ => by simp [sameMapValue]
  | .mapSlice _ => by simp [sameMapValue]
  | .ifaceMap _ => by simp [sameMapValue]
  | .seq xs => by
    simp only [sameMapValue]
    exact ⟨xs, rfl, sameMapElems_refl xs⟩
  | .strMap es => by
    simp only [sameMapValue]
    exact ⟨es, es, rfl, List.Perm.refl _, sameEntries_refl es⟩
theorem sameMapElems_refl : ∀ xs : List Value, sameMapElems xs xs
  | [] => by simp [sameMapElems]
  | v :: rest => by
    simp only [sameMapElems]
    exact ⟨v, rest, rfl, sameMapValue_refl v, sameMapElems_refl rest⟩
theorem sameEntries_refl : ∀ es : List (String × Value), sameEntries es es
  | [] => by simp [sameEntries]
  | (k, v) :: rest => by
    simp only [sameEntries]
    exact ⟨v, rest, rfl, sameMapValue_refl v, sameEntries_refl rest⟩
end


theorem entryLess_asymm (a b : String × Value) (h : entryLess a b = true) :
    entryLess b a = false :=
  textLess_asymm _ _ h

theorem entryLess_trans (a b c : String × Value) (h1 : entryLess a b = true)
    (h2 : entryLess b c = true) : entryLess a c = true :=
  textLess_trans _ _ _ h1 h2

theorem entryLess_total_key (a b : String × Value) (h1 : entryLess a b = false)
    (h2 : entryLess b a = false) : a.1 = b.1 :=
  String.ext (textLess_total _ _ h1 h2)

theorem distinctKeys_inj (l : List (String × Value))
    (h : distinctKeys l = true) :
    ∀ a ∈ l, ∀ b ∈ l, a.1 = b.1 → a = b := by
  induction l with
  | nil => intro a ha; cases ha
  | cons x rest ih =>
    simp only [distinctKeys, Bool.and_eq_true, List.all_eq_true,
      decide_eq_true_eq] at h
    intro a ha b hb hab
    rcases List.mem_cons.mp ha with ha | ha
    · rcases List.mem_cons.mp hb with hb | hb
      · rw [ha, hb]
      · rw [ha] at hab
        exact absurd hab.symm (h.1 b hb)
    · rcases List.mem_cons.mp hb with hb | hb
      · rw [hb] at hab
        exact absurd hab (h.1 a ha)
      · exact ih h.2 a ha b hb hab

theorem distinctKeys_iff (l : List (String × Value)) :
    distinctKeys l = true ↔ (l.map Prod.fst).Nodup := by
  induction l with
  | nil => simp [distinctKeys]
  | cons a rest ih =>
    simp only [distinctKeys, Bool.and_eq_true, List.all_eq_true,
      decide_eq_true_eq, ih, List.map_cons, List.nodup_cons, List.mem_map,
      not_exists, not_and]

theorem distinctKeys_of_keys_eq (l₁ l₂ : List (String × Value))
    (hk : l₁.map Prod.fst = l₂.map Prod.fst) (h : distinctKeys l₁ = true) :
    distinctKeys l₂ = true := by
  rw [distinctKeys_iff] at h ⊢
  rw [← hk]
  exact h

theorem sortKeysEntries_eq_map :
    ∀ es : List (String × Value),
      sortKeysEntries es = es.map (fun e => (e.1, sortKeys e.2))
  | [] => by simp [sortKeysEntries]
  | (k, v) :: rest => by simp [sortKeysEntries, sortKeysEntries_eq_map rest]

theorem sortKeysEntries_keys (es : List (String × Value)) :
    (sortKeysEntries es).map Prod.fst = es.map Prod.fst := by
  rw [sortKeysEntries_eq_map]
  simp [List.map_map, Function.comp_def]

theorem sameEntries_keys :
    ∀ es l : List (String × Value), sameEntries es l →
      l.map Prod.fst = es.map Prod.fst
  | [], l, h => by
    simp only [sameEntries] at h
    simp [h]
  | (k, v) :: rest, l, h => by
    simp only [sameEntries] at h
    obtain ⟨w, l', hl, _, hrest⟩ := h
    subst hl
    simp [sameEntries_keys rest l' hrest]

/-- Two reorderings of entries with pairwise different keys sort to the same
list. -/
theorem sortSlice_entryLess_eq_of_perm (l₁ l₂ : List (String × Value))
    (hp : l₁.Perm l₂) (hd : distinctKeys l₁ = true) :
    sortSlice entryLess l₁ = sortSlice entryLess l₂ :=
  sortSlice_eq_of_perm entryLess entryLess_asymm entryLess_trans l₁ l₂ hp
    (fun a ha b hb h1 h2 =>
      distinctKeys_inj l₁ hd a ha b hb (entryLess_total_key a b h1 h2))

theorem sortSlice_sortKeysEntries_eq (es es' l : List (String × Value))
    (hp : l.Perm es') (hs : sameEntries es l) (hd : distinctKeys es = true)
    (ih : sortKeysEntries es = sortKeysEntries l) :
    sortSlice entryLess (sortKeysEntries es)
      = sortSlice entryLess (sortKeysEntries es') := by
  rw [ih]
  apply sortSlice_entryLess_eq_of_perm
  · rw [sortKeysEntries_eq_map, sortKeysEntries_eq_map]
    exact hp.map _
  · apply distinctKeys_of_keys_eq es (sortKeysEntries l) _ hd
    rw [sortKeysEntries_keys, sameEntries_keys es l hs]

mutual
theorem sortKeysEntries_eq_of_sameEntries :
    ∀ es l : List (String × Value), sameEntries es l →
      validMapsEntries es = true → sortKeysEntries es = sortKeysEntries l
  | [], l, h, _ => by
    simp only [sameEntries] at h
    rw [h]
  | (k, v) :: rest, l, h, hv => by
    simp only [sameEntries] at h
    obtain ⟨w, l', hl, hvw, hrest⟩ := h
    subst hl
    simp only [validMapsEntries, Bool.and_eq_true] at hv
    simp only [sortKeysEntries]
    rw [sortKeys_eq_of_sameMapValue v w hvw hv.1,
      sortKeysEntries_eq_of_sameEntries rest l' hrest hv.2]
theorem sortKeys_eq_of_sameMapValue :
    ∀ v w : Value, sameMapValue v w → validMaps v = true →
      sortKeys v = sortKeys w
  | .scalar _, w, h, _ => by
    simp only [sameMapValue] at h
    rw [h]
  | .mapSlice _, w, h, _ => by
    simp only [sameMapValue] at h
    rw [h]
  | .ifaceMap _, w, h, _ => by
    simp only [sameMapValue] at h
    rw [h]
  | .seq xs, w, h, hv => by
    simp only [sameMapValue] at h
    obtain ⟨ys, hw, hxs⟩ := h
    subst hw
    simp only [validMaps] at hv
    simp only [sortKeys]
    rw [sortKeysList_eq_of_sameMapElems xs ys hxs hv]
  | .strMap es, w, h, hv => by
    simp only [sameMapValue] at h
    obtain ⟨es', l, hw, hp, hs⟩ := h
    subst hw
    simp only [validMaps, Bool.and_eq_true] at hv
    simp only [sortKeys]
    rw [sortSlice_sortKeysEntries_eq es es' l hp hs hv.1
      (sortKeysEntries_eq_of_sameEntries es l hs hv.2)]
theorem sortKeysList_eq_of_sameMapElems :
    ∀ xs ys : List Value, sameMapElems xs ys → validMapsList xs = true →
      sortKeysList xs = sortKeysList ys
  | [], ys, h, _ => by
    simp only [sameMapElems] at h
    rw [h]
  | v :: rest, ys, h, hv => by
    simp only [sameMapElems] at h
    obtain ⟨y, ys', hys, hvy, hrest⟩ := h
    subst hys
    simp only [validMapsList, Bool.and_eq_true] at hv
    simp only [sortKeysList]
    rw [sortKeys_eq_of_sameMapValue v y hvy hv.1,
      sortKeysList_eq_of_sameMapElems rest ys' hrest hv.2]
end

theorem sortedValues_eq_of_sameValues (a b : List (String × Value))
    (h : sameValues a b) (hv : validMaps (.strMap a) = true) :
    sortedValues a = sortedValues b := by
  obtain ⟨l, hp, hs⟩ := h
  simp only [validMaps, Bool.and_eq_true] at hv
  exact sortSlice_sortKeysEntries_eq a b l hp hs hv.1
    (sortKeysEntries_eq_of_sameEntries a l hs hv.2)

theorem sameValues_length (a b : List (String × Value)) (h : sameValues a b) :
    b.length = a.length := by
  obtain ⟨l, hp, hs⟩ := h
  have h1 := congrArg List.length (sameEntries_keys a l hs)
  simp only [List.length_map] at h1
  rw [← hp.length_eq, h1]

theorem flatLine_sortKeys (k : String) (v : Value) :
    flatLine (k, sortKeys v) = flatLine (k, v) := by
  cases v <;> simp [sortKeys, flatLine]

theorem flatDocument_sortKeysEntries :
    ∀ es : List (String × Value),
      flatDocument (sortKeysEntries es) = flatDocument es
  | [] => by simp [sortKeysEntries]
  | (k, v) :: rest => by
    simp only [sortKeysEntries, flatDocument, flatLine_sortKeys,
      flatDocument_sortKeysEntries rest]

/-- The model of `Values.YAML()` on flat maps writes keys sorted. -/
theorem writesKeysSorted_flatCodec : writesKeysSorted flatCodec := by
  refine ⟨fun l => if l.isEmpty then some [123, 125, 10] else flatDocument l, ?_⟩
  intro values
  have hsort : sortedValues values
      = sortKeysEntries (sortSlice entryLess values) := by
    unfold sortedValues
    rw [sortKeysEntries_eq_map, sortKeysEntries_eq_map]
    exact sortSlice_map entryLess (fun e => (e.1, sortKeys e.2))
      (fun a b => rfl) values
  have hempty : (sortedValues values).isEmpty = values.isEmpty := by
    have hlen : (sortedValues values).length = values.length := by
      unfold sortedValues
      rw [(sortSlice_perm entryLess _).length_eq, sortKeysEntries_eq_map,
        List.length_map]
    cases values with
    | nil => rfl
    | cons e rest =>
      cases hsv : sortedValues (e :: rest) with
      | nil => rw [hsv] at hlen; simp at hlen
      | cons _ _ => rfl
  show flatValuesYAML values = _
  simp only [hempty]
  rw [hsort, flatDocument_sortKeysEntries]
  rfl

/-! ## Lemmas: `copyValues` on a round trip that succeeds -/

/-- With an encoder that returns bytes and a decoder that finds an entry with
nested maps in them, `copyValues` returns that entry with its maps
string-keyed. -/
theorem copyValues_roundTrip_example :
    copyValues roundTripCodec treeValuesBA
      = some [("m", .strMap [("1", .scalar (.str "one")),
                             ("s", .seq [.strMap []])])] := by
  decide

/-! ## The claims -/

/-- C1: `OrderedValuesChecksum` is not independent of the order in which the
keys of a mapping inside a sequence of sequences are met. For the values
`x: [[{a: 2, b: 1}]]` the ordered mapping that is handed to the encoder (the
value cleaned by `cleanUpMapValue`, converted by `JSONObjectToYAMLObject` and
sorted by `SortMapSlice`) keeps the inner mapping in the order of the `range`
loop: `b`, `a` for one order and `a`, `b` for the other, two different
documents. -/
theorem OrderedValuesChecksum_document_depends_on_order :
    SortMapSlice (JSONObjectToYAMLObject [("x", cleanUpMapValue decodedSeqInSeqBA)])
        = [(.str "x", .seq [.seq [pairBA]])]
      ∧ SortMapSlice (JSONObjectToYAMLObject [("x", cleanUpMapValue decodedSeqInSeqAB)])
        = [(.str "x", .seq [.seq [pairAB]])]
      ∧ SortMapSlice (JSONObjectToYAMLObject [("x", cleanUpMapValue decodedSeqInSeqBA)])
        ≠ SortMapSlice (JSONObjectToYAMLObject [("x", cleanUpMapValue decodedSeqInSeqAB)]) := by
  decide

/-- C2: after `SortMapSlice(ms)` the top-level pairs are in ascending order of
the text of their keys: for all positions `i < j` the text of the key at `i`
is at most the text of the key at `j` in the order of strings. -/
theorem SortMapSlice_top_level_ascending (ms : List (Scalar × Value))
    (i j : Nat) (hij : i < j) (hj : j < (SortMapSlice ms).length) :
    sprint ((SortMapSlice ms).get ⟨i, Nat.lt_trans hij hj⟩).1
      ≤ sprint ((SortMapSlice ms).get ⟨j, hj⟩).1 := by
  have h := List.pairwise_iff_get.mp (SortMapSlice_ascending ms)
    ⟨i, Nat.lt_trans hij hj⟩ ⟨j, hj⟩ hij
  exact (textLess_eq_false_iff_le _ _).mp h

theorem SortMapSlice_top_level_ascending_witness :
    (0 < 1 ∧ 1 < (SortMapSlice nineTen).length)
      ∧ sprint ((SortMapSlice nineTen).get ⟨0, by decide⟩).1
        ≤ sprint ((SortMapSlice nineTen).get ⟨1, by decide⟩).1 :=
  ⟨⟨by decide, by decide⟩,
    SortMapSlice_top_level_ascending nineTen 0 1 (by decide) (by decide)⟩

/-- C3: `SortMapSlice` leaves a mapping node unsorted. On the document
`x: [[{b: 1, a: 2}]]` the result is the input, whose inner mapping has the key
`b` before the key `a`, so not every mapping node of the result has ascending
keys. -/
theorem SortMapSlice_leaves_seq_in_seq_unsorted :
    SortMapSlice seqInSeqDoc = seqInSeqDoc
      ∧ allSorted (.mapSlice (SortMapSlice seqInSeqDoc)) = false := by
  decide

/-- C4: `SortMapSlice` descends one level into a sequence. For every pair of
`ms` whose value is a sequence `xs`, the result holds the same key with a
sequence `ys` of the same length in which an element that is an ordered
mapping is that mapping sorted by `SortMapSlice`, an element that is a
sequence is the same sequence (so a mapping inside it keeps its pair order),
and every element that is not an ordered mapping is unchanged. -/
theorem SortMapSlice_sequence_one_level (ms : List (Scalar × Value))
    (k : Scalar) (xs : List Value) (h : (k, Value.seq xs) ∈ ms) :
    ∃ ys : List Value, (k, Value.seq ys) ∈ SortMapSlice ms
      ∧ ∃ hlen : ys.length = xs.length,
        ∀ (i : Nat) (hi : i < xs.length),
          (∀ m, xs.get ⟨i, hi⟩ = .mapSlice m →
              ys.get ⟨i, hlen ▸ hi⟩ = .mapSlice (SortMapSlice m))
          ∧ (∀ zs, xs.get ⟨i, hi⟩ = .seq zs → ys.get ⟨i, hlen ▸ hi⟩ = .seq zs)
          ∧ ((∀ m, xs.get ⟨i, hi⟩ ≠ .mapSlice m) →
              ys.get ⟨i, hlen ▸ hi⟩ = xs.get ⟨i, hi⟩) := by
  refine ⟨xs.map sortSeqElem, ?_, by simp, ?_⟩
  · have := mem_SortMapSlice ms k (.seq xs) h
    simpa [sortItemValue, sortSeqElems_eq_map] using this
  · intro i hi
    have hget : (xs.map sortSeqElem).get ⟨i, by simpa using hi⟩
        = sortSeqElem (xs.get ⟨i, hi⟩) := by simp
    refine ⟨?_, ?_, ?_⟩
    · intro m hm
      rw [hget, hm, sortSeqElem_mapSlice]
    · intro zs hzs
      rw [hget, hzs]
      simp [sortSeqElem]
    · intro hne
      rw [hget]
      exact sortSeqElem_of_not_mapSlice _ hne

theorem SortMapSlice_sequence_one_level_witness :
    (Scalar.str "x", Value.seq [pairBA, .seq [pairBA], .scalar (.int 7)])
        ∈ mixedSeqDoc
      ∧ ∃ ys : List Value, (Scalar.str "x", Value.seq ys) ∈ SortMapSlice mixedSeqDoc
        ∧ ∃ hlen : ys.length = [pairBA, .seq [pairBA], .scalar (.int 7)].length,
          ∀ (i : Nat) (hi : i < [pairBA, .seq [pairBA], .scalar (.int 7)].length),
            (∀ m, [pairBA, .seq [pairBA], .scalar (.int 7)].get ⟨i, hi⟩
                = .mapSlice m →
                ys.get ⟨i, hlen ▸ hi⟩ = .mapSlice (SortMapSlice m))
            ∧ (∀ zs, [pairBA, .seq [pairBA], .scalar (.int 7)].get ⟨i, hi⟩
                = .seq zs → ys.get ⟨i, hlen ▸ hi⟩ = .seq zs)
            ∧ ((∀ m, [pairBA, .seq [pairBA], .scalar (.int 7)].get ⟨i, hi⟩
                ≠ .mapSlice m) →
                ys.get ⟨i, hlen ▸ hi⟩
                  = [pairBA, .seq [pairBA], .scalar (.int 7)].get ⟨i, hi⟩) :=
  ⟨by decide,
    SortMapSlice_sequence_one_level mixedSeqDoc (.str "x")
      [pairBA, .seq [pairBA], .scalar (.int 7)] (by decide)⟩

/-- C5: `SortMapSlice` is idempotent: applying it twice gives what applying it
once gives, and a structure that is already sorted wherever `SortMapSlice`
looks, as every result of `SortMapSlice` is, is left unchanged. -/
theorem SortMapSlice_idempotent (ms : List (Scalar × Value)) :
    SortMapSlice (SortMapSlice ms) = SortMapSlice ms
      ∧ reachSorted (SortMapSlice ms) = true
      ∧ (reachSorted ms = true → SortMapSlice ms = ms) :=
  ⟨SortMapSlice_of_reachSorted _ (reachSorted_SortMapSlice ms),
    reachSorted_SortMapSlice ms, SortMapSlice_of_reachSorted ms⟩

theorem SortMapSlice_idempotent_witness :
    reachSorted [(Scalar.str "x", Value.seq [pairAB])] = true
      ∧ SortMapSlice [(Scalar.str "x", Value.seq [pairAB])]
        = [(Scalar.str "x", Value.seq [pairAB])] :=
  ⟨by decide,
    (SortMapSlice_idempotent [(Scalar.str "x", Value.seq [pairAB])]).2.2
      (by decide)⟩

/-- C6: for a tree with zero top-level entries both `ValuesChecksum` and
`OrderedValuesChecksum` return the digest of the empty byte sequence, the text
`da39a3ee5e6b4b0d3255bfef95601890afd80709`, whatever the YAML routines do. -/
theorem checksums_of_empty_values (c : Codec) (values : List (String × Value))
    (h : values.length = 0) :
    ValuesChecksum c values = sprintfHex (sha1Sum [])
      ∧ OrderedValuesChecksum c values = sprintfHex (sha1Sum [])
      ∧ sprintfHex (sha1Sum []) = "da39a3ee5e6b4b0d3255bfef95601890afd80709" := by
  have hnil : values = [] := List.length_eq_zero.mp h
  subst hnil
  exact ⟨by simp [ValuesChecksum], by simp [OrderedValuesChecksum],
    sprintfHex_sha1Sum_nil⟩

theorem checksums_of_empty_values_witness :
    ([] : List (String × Value)).length = 0
      ∧ ValuesChecksum failingCodec [] = sprintfHex (sha1Sum [])
      ∧ OrderedValuesChecksum failingCodec [] = sprintfHex (sha1Sum [])
      ∧ sprintfHex (sha1Sum []) = "da39a3ee5e6b4b0d3255bfef95601890afd80709" :=
  ⟨rfl, checksums_of_empty_values failingCodec [] rfl⟩

/-- C7: for every input tree and whatever the YAML routines return,
`ValuesChecksum` and `OrderedValuesChecksum` each return the hexadecimal text
of a digest of 20 bytes: exactly 40 characters, each a lowercase hexadecimal
digit. -/
theorem checksums_are_forty_lowercase_hex (c : Codec)
    (values : List (String × Value)) :
    ((ValuesChecksum c values).length = 40
        ∧ (∀ ch ∈ (ValuesChecksum c values).toList, isLowerHex ch = true)
        ∧ ∃ digest : List Nat, digest.length = 20 ∧ (∀ b ∈ digest, b < 256)
            ∧ ValuesChecksum c values = sprintfHex digest)
      ∧ ((OrderedValuesChecksum c values).length = 40
        ∧ (∀ ch ∈ (OrderedValuesChecksum c values).toList, isLowerHex ch = true)
        ∧ ∃ digest : List Nat, digest.length = 20 ∧ (∀ b ∈ digest, b < 256)
            ∧ OrderedValuesChecksum c values = sprintfHex digest) := by
  refine ⟨⟨?_, ?_, ?_⟩, ⟨?_, ?_, ?_⟩⟩
  · simp [ValuesChecksum, sprintfHex_length, sha1Sum_length]
  · exact sprintfHex_isLowerHex _
  · exact ⟨_, sha1Sum_length _, sha1Sum_byte _, rfl⟩
  · simp [OrderedValuesChecksum, sprintfHex_length, sha1Sum_length]
  · exact sprintfHex_isLowerHex _
  · exact ⟨_, sha1Sum_length _, sha1Sum_byte _, rfl⟩

/-- C8: for every tree `v` that `cleanUpMapValue` is called on, the output of
the YAML decoder, made of scalars, sequences and `map[interface{}]interface{}`
maps, the result holds no `map[interface{}]interface{}` at any depth: every
mapping node of the result, at every depth, is a `map[string]interface{}`. -/
theorem cleanUpMapValue_string_keyed (v : Value) (h : decoderTree v = true) :
    hasIfaceMap (cleanUpMapValue v) = false
      ∧ onlyStrMaps (cleanUpMapValue v) = true :=
  ⟨hasIfaceMap_cleanUpMapValue v (noIfaceBelowOther_of_decoderTree v h),
    onlyStrMaps_cleanUpMapValue v h⟩

theorem cleanUpMapValue_string_keyed_witness :
    decoderTree decodedTree = true
      ∧ hasIfaceMap (cleanUpMapValue decodedTree) = false
      ∧ onlyStrMaps (cleanUpMapValue decodedTree) = true :=
  ⟨by decide, cleanUpMapValue_string_keyed decodedTree (by decide)⟩

/-- C9: for every tree whose `map[interface{}]interface{}` nodes have only
string keys (the keys of a Go map being pairwise different),
`cleanUpMapValue(v)` is structurally equal to `v`: with the static key type of
the maps forgotten, the two trees are the same. -/
theorem cleanUpMapValue_noop_on_string_keys (v : Value)
    (hvalid : validMaps v = true) (hkeys : stringKeyed v = true) :
    keyView (cleanUpMapValue v) = keyView v :=
  keyView_cleanUpMapValue v hvalid hkeys

theorem cleanUpMapValue_noop_on_string_keys_witness :
    (validMaps stringKeyedTree = true ∧ stringKeyed stringKeyedTree = true)
      ∧ keyView (cleanUpMapValue stringKeyedTree) = keyView stringKeyedTree :=
  ⟨⟨by decide, by decide⟩,
    cleanUpMapValue_noop_on_string_keys stringKeyedTree (by decide) (by decide)⟩

/-- C10: `ReleaseRevision` is 0 for an absent record and the version counter
of a record that is present; a record with version 7 gives 7. -/
theorem ReleaseRevision_spec :
    ReleaseRevision none = 0
      ∧ (∀ r : Release, ReleaseRevision (some r) = r.Version)
      ∧ ReleaseRevision (some ⟨"demo", 7, "default"⟩) = 7 :=
  ⟨rfl, fun _ => rfl, rfl⟩

set_option maxRecDepth 100000 in
/-- C11, as the claim states it, fails on the modelled encoder: for the
values `b: 1`, `a: 2` the digest `ValuesChecksum` returns is that of the text
`YAML()` returns, with `a` before `b`, and not that of the document with the
keys in insertion order. -/
theorem ValuesChecksum_not_of_insertion_order :
    flatCodec.valuesYAML valuesBA = some textAB
      ∧ insertionOrderYAML valuesBA = some textBA
      ∧ ValuesChecksum flatCodec valuesBA = sprintfHex (sha1Sum textAB)
      ∧ ValuesChecksum flatCodec valuesBA ≠ sprintfHex (sha1Sum textBA) := by
  decide

/-- C11, amended: for every tree with at least one top-level entry,
`ValuesChecksum` returns the hexadecimal text of the SHA-1 digest of the bytes
of the text `values.YAML()` returns for the tree as it is given, and of no
bytes when `YAML()` fails; the function reorders nothing itself. -/
theorem ValuesChecksum_of_nonempty (c : Codec) (values : List (String × Value))
    (h : values.length ≠ 0) :
    ValuesChecksum c values = sprintfHex (sha1Sum ((c.valuesYAML values).getD []))
      ∧ (∀ text, c.valuesYAML values = some text →
          ValuesChecksum c values = sprintfHex (sha1Sum text))
      ∧ (c.valuesYAML values = none →
          ValuesChecksum c values = sprintfHex (sha1Sum [])) := by
  have h0 : ValuesChecksum c values
      = sprintfHex (sha1Sum ((c.valuesYAML values).getD [])) := by
    simp [ValuesChecksum, h]
  refine ⟨h0, ?_, ?_⟩
  · intro text ht
    rw [h0, ht]
    rfl
  · intro hn
    rw [h0, hn]
    rfl

theorem ValuesChecksum_of_nonempty_witness :
    valuesBA.length ≠ 0
      ∧ ValuesChecksum flatCodec valuesBA
        = sprintfHex (sha1Sum ((flatCodec.valuesYAML valuesBA).getD []))
      ∧ (∀ text, flatCodec.valuesYAML valuesBA = some text →
          ValuesChecksum flatCodec valuesBA = sprintfHex (sha1Sum text))
      ∧ (flatCodec.valuesYAML valuesBA = none →
          ValuesChecksum flatCodec valuesBA = sprintfHex (sha1Sum [])) :=
  ⟨by decide, ValuesChecksum_of_nonempty flatCodec valuesBA (by decide)⟩

set_option maxRecDepth 100000 in
/-- C12, as the claim states it, fails on the modelled encoder: the values
`b: 1`, `a: 2` and `a: 2`, `b: 1` have the same content in two different
orders, and `ValuesChecksum` returns the same digest for both. -/
theorem ValuesChecksum_same_for_two_orders :
    valuesBA.Perm valuesAB ∧ valuesBA ≠ valuesAB
      ∧ ValuesChecksum flatCodec valuesBA = ValuesChecksum flatCodec valuesAB := by
  refine ⟨List.Perm.swap _ _ _, by decide, by decide⟩

/-- C12, amended: `ValuesChecksum` is not sensitive to the order of keys. With
an encoder that writes the keys of maps in sorted order, as `values.YAML()`
does, two values maps with the same content up to the order of the entries of
their string-keyed maps at every nesting level, the keys of each map being
pairwise different as in every Go map, get the same text and the same
digest. -/
theorem ValuesChecksum_same_for_reordered_keys (c : Codec)
    (a b : List (String × Value)) (hsorted : writesKeysSorted c)
    (hsame : sameValues a b) (hvalid : validMaps (.strMap a) = true) :
    c.valuesYAML a = c.valuesYAML b
      ∧ ValuesChecksum c a = ValuesChecksum c b := by
  obtain ⟨render, hr⟩ := hsorted
  have htext : c.valuesYAML a = c.valuesYAML b := by
    rw [hr a, hr b, sortedValues_eq_of_sameValues a b hsame hvalid]
  have hlen : b.length = a.length := sameValues_length a b hsame
  refine ⟨htext, ?_⟩
  simp only [ValuesChecksum, htext, hlen]

theorem ValuesChecksum_same_for_reordered_keys_witness :
    (writesKeysSorted flatCodec ∧ sameValues valuesBA valuesAB
        ∧ validMaps (.strMap valuesBA) = true)
      ∧ flatCodec.valuesYAML valuesBA = flatCodec.valuesYAML valuesAB
      ∧ ValuesChecksum flatCodec valuesBA = ValuesChecksum flatCodec valuesAB :=
  have hsame : sameValues valuesBA valuesAB :=
    ⟨valuesBA, List.Perm.swap _ _ _, sameEntries_refl valuesBA⟩
  ⟨⟨writesKeysSorted_flatCodec, hsame, by decide⟩,
    ValuesChecksum_same_for_reordered_keys flatCodec valuesBA valuesAB
      writesKeysSorted_flatCodec hsame (by decide)⟩

/-- C13: `SortMapSlice` gives a canonical form on trees without directly
nested sequences. For two ordered mappings with the same content up to the
order of pairs at every nesting level, where the keys of every ordered mapping
have pairwise different texts and no sequence is a direct element of a
sequence, `SortMapSlice` gives the same structure, hence the same bytes from
the encoder and the same digest. -/
theorem SortMapSlice_canonical (a b : List (Scalar × Value))
    (hsame : sameMapping a b)
    (hkeys : distinctKeyTexts (.mapSlice a) = true)
    (hseq : noSeqInSeq (.mapSlice a) = true) :
    SortMapSlice a = SortMapSlice b
      ∧ ∀ c : Codec,
        sprintfHex (sha1Sum ((c.marshal (.mapSlice (SortMapSlice a))).getD []))
          = sprintfHex (sha1Sum ((c.marshal (.mapSlice (SortMapSlice b))).getD [])) := by
  have h := SortMapSlice_eq_of_sameMapping a b hsame hkeys hseq
  exact ⟨h, fun c => by rw [h]⟩

theorem SortMapSlice_canonical_witness :
    (sameMapping nestedBA nestedAB
        ∧ distinctKeyTexts (.mapSlice nestedBA) = true
        ∧ noSeqInSeq (.mapSlice nestedBA) = true)
      ∧ SortMapSlice nestedBA = SortMapSlice nestedAB :=
  have hsame : sameMapping nestedBA nestedAB :=
    ⟨nestedAB, List.Perm.refl _, by
      simp only [nestedBA, nestedAB, pairBA, pairAB, samePairs, sameValue]
      exact ⟨_, _, rfl,
        ⟨_, [(.str "b", .scalar (.int 1)), (.str "a", .scalar (.int 2))], rfl,
          List.Perm.swap _ _ _, by simp [samePairs, sameValue]⟩, rfl⟩⟩
  ⟨⟨hsame, by decide, by decide⟩,
    (SortMapSlice_canonical nestedBA nestedAB hsame (by decide) (by decide)).1⟩

/-- C14: `SortMapSlice` only reorders. The result has as many top-level pairs
as `ms`, with the same keys as often as before; it is a reordering of the pairs
of `ms` with every value the same up to the order of pairs inside it, so that
scalars are unchanged and every sequence keeps its length and the order of its
elements. -/
theorem SortMapSlice_only_reorders (ms : List (Scalar × Value)) :
    (SortMapSlice ms).length = ms.length
      ∧ ((SortMapSlice ms).map Prod.fst).Perm (ms.map Prod.fst)
      ∧ sameMapping ms (SortMapSlice ms)
      ∧ (∀ k s, (k, Value.scalar s) ∈ ms → (k, Value.scalar s) ∈ SortMapSlice ms)
      ∧ (∀ k xs, (k, Value.seq xs) ∈ ms →
          ∃ ys, (k, Value.seq ys) ∈ SortMapSlice ms ∧ ys.length = xs.length
            ∧ sameElems xs ys) := by
  have hperm : (SortMapSlice ms).Perm (sortItems ms) := sortSlice_perm keyLess _
  refine ⟨?_, ?_, sameMapping_SortMapSlice ms, ?_, ?_⟩
  · rw [hperm.length_eq, sortItems_eq_map, List.length_map]
  · have h := hperm.map Prod.fst
    rw [sortItems_keys] at h
    exact h
  · intro k s h
    have := mem_SortMapSlice ms k (.scalar s) h
    simpa [sortItemValue] using this
  · intro k xs h
    have := mem_SortMapSlice ms k (.seq xs) h
    refine ⟨sortSeqElems xs, by simpa [sortItemValue] using this, ?_, ?_⟩
    · exact sameElems_length xs _ (sameElems_sortSeqElems xs)
    · exact sameElems_sortSeqElems xs

theorem SortMapSlice_only_reorders_witness :
    (Scalar.str "y", Value.scalar (.int 0)) ∈ mixedSeqDoc
      ∧ (Scalar.str "y", Value.scalar (.int 0)) ∈ SortMapSlice mixedSeqDoc :=
  ⟨by decide,
    (SortMapSlice_only_reorders mixedSeqDoc).2.2.2.1 (.str "y") (.int 0)
      (by decide)⟩

/-- C15: `SortMapSlice` compares keys by their text and not by their type or
numeric value: the mapping with the integer keys 9 and 10 is sorted with the
pair of key 10 before the pair of key 9, the text `10` being less than the
text `9`. -/
theorem SortMapSlice_compares_key_texts :
    SortMapSlice nineTen
        = [(.int 10, .scalar (.str "ten")), (.int 9, .scalar (.str "nine"))]
      ∧ sprint (.int 10) = "10" ∧ sprint (.int 9) = "9"
      ∧ sprint (.int 10) < sprint (.int 9) := by
  refine ⟨by decide, by decide, by decide, ?_⟩
  rw [← textLess_iff_lt]
  decide

/-- C16, as the claim states it, fails: the keys 1 (an integer) and `1` (a
string) have the same text, so `cleanUpInterfaceMap` returns one entry for
the two, and the text of the integer key is not mapped to its value. -/
theorem cleanUpInterfaceMap_merges_equal_texts :
    collidingKeys.length = 2
      ∧ (cleanUpInterfaceMap collidingKeys).length = 1
      ∧ (Scalar.int 1, Value.scalar (.str "int")) ∈ collidingKeys
      ∧ mapGet (cleanUpInterfaceMap collidingKeys) (sprint (.int 1))
        ≠ some (cleanUpMapValue (.scalar (.str "int"))) := by
  decide

/-- C16, amended: for every dynamically keyed mapping `m` whose keys have
pairwise different texts, `cleanUpInterfaceMap(m)` has as many entries as `m`,
and for every entry `(k, v)` of `m` it maps the text of `k` to
`cleanUpMapValue(v)`. -/
theorem cleanUpInterfaceMap_equivalent (m : List (Scalar × Value))
    (h : keyTextsDistinct m = true) :
    (cleanUpInterfaceMap m).length = m.length
      ∧ ∀ k v, (k, v) ∈ m →
          mapGet (cleanUpInterfaceMap m) (sprint k) = some (cleanUpMapValue v) := by
  rw [cleanUpInterfaceMap_of_distinct m h]
  exact ⟨by simp, mapGet_map_of_distinct m h⟩

theorem cleanUpInterfaceMap_equivalent_witness :
    keyTextsDistinct nineTen = true
      ∧ (cleanUpInterfaceMap nineTen).length = nineTen.length
      ∧ ∀ k v, (k, v) ∈ nineTen →
          mapGet (cleanUpInterfaceMap nineTen) (sprint k)
            = some (cleanUpMapValue v) :=
  ⟨by decide, cleanUpInterfaceMap_equivalent nineTen (by decide)⟩

/-- C17, as the claim states it, fails: on values that hold a value without a
YAML encoding the encoder panics, `copyValues` does not recover, and no
mapping is returned. -/
theorem copyValues_panics_without_encoding :
    treeValues noEncodingValues = none
      ∧ copyValues roundTripCodec noEncodingValues = none := by
  exact ⟨rfl, rfl⟩

/-- C17, amended: `copyValues` has no error result and drops the errors of the
round trip. On values without an encoding the encoder panics and nothing is
returned. On every other input, a tree, the call returns a mapping: the
entries the decoder assigns from the bytes of the encoder, each value cleaned
by `cleanUpMapValue`; and when the encode step returns an error, so that there
are no bytes to decode, the mapping returned is empty. -/
theorem copyValues_returns_unless_panic (c : Codec)
    (values : List (String × GoValue)) :
    (treeValues values = none → copyValues c values = none)
      ∧ ∀ t, treeValues values = some t →
          copyValues c values
              = some ((decodeFresh c ((c.marshal (.strMap t)).getD [])).map
                  (fun e => (e.1, cleanUpMapValue e.2)))
            ∧ (c.marshal (.strMap t) = none → copyValues c values = some []) := by
  refine ⟨?_, ?_⟩
  · intro h
    simp [copyValues, h]
  · intro t h
    refine ⟨?_, ?_⟩
    · simp [copyValues, h, copyValuesTree]
    · intro hfail
      simp [copyValues, h, copyValuesTree, hfail, decodeFresh]

theorem copyValues_returns_unless_panic_witness :
    (treeValues treeValuesBA = some valuesBA
        ∧ encodeFailsCodec.marshal (.strMap valuesBA) = none)
      ∧ copyValues encodeFailsCodec treeValuesBA = some [] :=
  ⟨⟨rfl, rfl⟩,
    ((copyValues_returns_unless_panic encodeFailsCodec treeValuesBA).2
      valuesBA rfl).2 rfl⟩

end Util
